import Mathlib

/-!
Verification of the staging, ordering and sequential-execution engine of the
VIP_FLIE Gaussian-splatting pipeline (src/core/pipeline_manager.py,
src/core/executor.py, src/core/category.py, src/core/state_models.py,
src/sections/base_section.py).

Sections are identified by their unique names (spec §3: a Stage's identity is
its name).  Python lists holding section objects become `List String`; the
settings store becomes a function model; mutable manager state becomes explicit
state passing.  Python list indexing (negative-index wraparound, IndexError) is
modelled by `Option`-valued access.
-/

namespace Pipeline

/-- src/core/category.py: SelectionMode enum. -/
inductive SelectionMode where
  | SINGLE
  | MULTI
deriving DecidableEq, Repr, Inhabited

/-- src/core/category.py: PipelineCategory — name, selection mode, stage rank
and the (names of the) owned sections. -/
structure PipelineCategory where
  name : String
  selection_mode : SelectionMode
  stage_index : Int
  sections : List String
deriving DecidableEq, Repr, Inhabited

/-- src/core/pipeline_manager.py `_find_category_for_section`: scan the
category list and return the first category containing the section.  We return
the index so that Python's object-identity comparison `cat == compared_cat`
can be modelled as index equality. -/
def find_category_idx : List PipelineCategory → String → Option Nat
  | [], _ => none
  | c :: cs, s =>
    if s ∈ c.sections then some 0 else (find_category_idx cs s).map (· + 1)

/-- The category (value) found by `_find_category_for_section`. -/
def find_category_for_section (cats : List PipelineCategory) (s : String) :
    Option PipelineCategory :=
  (find_category_idx cats s).bind fun i => cats[i]?

/-- The `stage_index` of the category a section belongs to, if any. -/
def rankOf (cats : List PipelineCategory) (s : String) : Option Int :=
  (find_category_for_section cats s).map (·.stage_index)

/-- Python list index resolution, wraparound step: negative indices are
offset once by the length. -/
def pyWrap (n : Nat) (i : Int) : Int :=
  if i < 0 then i + n else i

/-- Python list index resolution: negative indices wrap around once; anything
still out of `[0, n)` raises IndexError (modelled as `none`). -/
def pyIdx (n : Nat) (i : Int) : Option Nat :=
  if 0 ≤ pyWrap n i ∧ pyWrap n i < (n : Int) then some (pyWrap n i).toNat
  else none

/-- Python `l[i]` on a list. -/
def pyGet (l : List String) (i : Int) : Option String :=
  (pyIdx l.length i).bind fun j => l[j]?

/-- Python `l[i] = v` on a list. -/
def pySet (l : List String) (i : Int) (v : String) : Option (List String) :=
  (pyIdx l.length i).map fun j => l.set j v

/-- src/core/pipeline_manager.py lines 96-110, `move_staged_item`:
bounds-check only the *target* index, then perform the simultaneous
assignment `l[index], l[new_index] = l[new_index], l[index]` (right-hand side
evaluated first, assignments left to right).  Returns the success flag and the
resulting list; `none` models an uncaught IndexError. -/
def move_staged_item (l : List String) (index direction : Int) :
    Option (Bool × List String) :=
  if 0 ≤ index + direction ∧ index + direction < (l.length : Int) then
    (pyGet l (index + direction)).bind fun a =>
      (pyGet l index).bind fun b =>
        (pySet l index a).bind fun l1 =>
          (pySet l1 (index + direction) b).map fun l2 => (true, l2)
  else
    some (false, l)

/-- src/core/pipeline_manager.py lines 72-94, `_validate_movement`: read the
two elements (unguarded Python indexing) and compare their categories by
object identity (here: by index into the category list; `none == none` is
`true`, matching Python's `None == None`). -/
def validate_movement (cats : List PipelineCategory) (l : List String)
    (index direction : Int) : Option Bool :=
  (pyGet l index).bind fun s =>
    (pyGet l (direction + index)).map fun c =>
      find_category_idx cats s == find_category_idx cats c

/-- The spec's `move(index, direction)` operation as the program performs it
(src/gui/preview_widget.py `_move_up`/`_move_down`): `_validate_movement`
first, and `move_staged_item` only when it returns `True`.  A `False` guard
result is a rejected no-op; `none` models the IndexError escaping from
`_validate_movement`. -/
def move_checked (cats : List PipelineCategory) (l : List String)
    (index direction : Int) : Option (Bool × List String) :=
  match validate_movement cats l index direction with
  | none => none
  | some true => move_staged_item l index direction
  | some false => some (false, l)

/-- src/core/pipeline_manager.py lines 143-152, `_validate_order` inner
recursion: `last_index` starts at `-1` and is replaced by every categorized
section's rank; a rank strictly below the previous one fails. -/
def validateAux (cats : List PipelineCategory) (last : Int) :
    List String → Bool
  | [] => true
  | s :: rest =>
    match rankOf cats s with
    | none => validateAux cats last rest
    | some r => if r < last then false else validateAux cats r rest

/-- src/core/pipeline_manager.py `_validate_order`. -/
def validate_order (cats : List PipelineCategory) (l : List String) : Bool :=
  validateAux cats (-1) l

/-- One iteration of the `for index, section in enumerate(...)` loop inside
`toggle_section_stage` (lines 59-65), acting on the mutating list: `fuel`
counts the remaining iterations (the loop visits indices `0..n-1` of the
length-preserving list, so `fuel = n - i` throughout). -/
def passAux (cats : List PipelineCategory) :
    Nat → List String → Nat → Int → List String
  | 0, l, _, _ => l
  | fuel + 1, l, i, last =>
    if h : i < l.length then
      match rankOf cats (l.get ⟨i, h⟩) with
      | none => passAux cats fuel l (i + 1) last
      | some r =>
        if r < last then
          match move_staged_item l (i : Int) (-1) with
          | some (_, l') => passAux cats fuel l' (i + 1) r
          | none => l
        else
          passAux cats fuel l (i + 1) r
    else l

/-- One full body of the `while self._validate_order() == False` repair loop. -/
def one_pass (cats : List PipelineCategory) (l : List String) : List String :=
  passAux cats l.length l 0 (-1)

/-- The repair `while` loop with an explicit iteration budget.  `none` means
the loop had not exited after `fuel` passes. -/
def repairFuel (cats : List PipelineCategory) :
    Nat → List String → Option (List String)
  | 0, _ => none
  | n + 1, l =>
    if validate_order cats l then some l else repairFuel cats n (one_pass cats l)

/-- The claim that the repair loop exits for a given staging list. -/
def repair_terminates (cats : List PipelineCategory) (l : List String) : Prop :=
  ∃ n, (repairFuel cats n l).isSome

/-- The eviction loop of `toggle_section_stage` (lines 53-55): for every
section of the single-select category, remove it from the staged list if
present and different from the newly activated one.  `List.erase` is Python's
`list.remove` (first occurrence). -/
def evict (staged : List String) : List String → String → List String
  | [], _ => staged
  | c :: cs, keep =>
    evict (if c ∈ staged ∧ c ≠ keep then staged.erase c else staged) cs keep

/-- The insertion part of `toggle_section_stage(section, active=True)`
(lines 46-57): no-op when already staged, otherwise evict single-select
siblings and append. -/
def toggle_insert (cats : List PipelineCategory) (staged : List String)
    (s : String) : List String :=
  if s ∈ staged then staged
  else
    (match find_category_for_section cats s with
     | some parent_cat =>
       if parent_cat.selection_mode = SelectionMode.SINGLE then
         evict staged parent_cat.sections s
       else staged
     | none => staged) ++ [s]

/-- `toggle_section_stage(section, active=False)` (lines 66-68): Python's
`list.remove` if present, i.e. `List.erase`. -/
def toggle_remove (staged : List String) (s : String) : List String :=
  staged.erase s

/-- The staging lists reachable from the empty list by the manager's
operations: `toggle(s, True)` (insertion followed by a terminating repair
loop), `toggle(s, False)`, and the guarded `move(index, direction)` operation
with `direction ∈ {-1, +1}`.  A `move` whose `_validate_movement` raises
leaves the list unchanged, hence contributes no new state. -/
inductive Reach (cats : List PipelineCategory) : List String → Prop
  | nil : Reach cats []
  | toggleOn {l s fuel l'} : Reach cats l →
      repairFuel cats fuel (toggle_insert cats l s) = some l' → Reach cats l'
  | toggleOff {l} (s) : Reach cats l → Reach cats (toggle_remove l s)
  | move {l index direction b l'} : Reach cats l →
      direction = -1 ∨ direction = 1 →
      move_checked cats l index direction = some (b, l') → Reach cats l'

/-! ### Basic facts about the Python-indexing model -/

theorem pyWrap_natCast (n i : Nat) : pyWrap n (i : Int) = (i : Int) := by
  unfold pyWrap
  have h0 : ¬ ((i : Int) < 0) := by omega
  rw [if_neg h0]

theorem pyIdx_natCast (n i : Nat) :
    pyIdx n (i : Int) = if i < n then some i else none := by
  unfold pyIdx
  rw [pyWrap_natCast]
  by_cases h : i < n
  · have hc : (0 : Int) ≤ (i : Int) ∧ (i : Int) < (n : Int) := by omega
    rw [if_pos hc, if_pos h, Int.toNat_natCast]
  · have hc : ¬ ((0 : Int) ≤ (i : Int) ∧ (i : Int) < (n : Int)) := by omega
    rw [if_neg hc, if_neg h]

theorem pyGet_natCast (l : List String) (i : Nat) : pyGet l (i : Int) = l[i]? := by
  unfold pyGet
  rw [pyIdx_natCast]
  by_cases h : i < l.length
  · simp [h]
  · have hn : l[i]? = none := List.getElem?_eq_none (by omega)
    simp [h, hn]

theorem pySet_natCast (l : List String) (i : Nat) (v : String) :
    pySet l (i : Int) v = if i < l.length then some (l.set i v) else none := by
  unfold pySet
  rw [pyIdx_natCast]
  by_cases h : i < l.length <;> simp [h]

theorem pySet_length {l l1 : List String} {i : Int} {v : String}
    (h : pySet l i v = some l1) : l1.length = l.length := by
  unfold pySet at h
  cases hp : pyIdx l.length i with
  | none => rw [hp] at h; cases h
  | some j => rw [hp] at h; cases h; simp

theorem move_staged_item_length {l l' : List String} {index direction : Int}
    {b : Bool} (h : move_staged_item l index direction = some (b, l')) :
    l'.length = l.length := by
  unfold move_staged_item at h
  by_cases hc : 0 ≤ index + direction ∧ index + direction < (l.length : Int)
  · rw [if_pos hc] at h
    cases h1 : pyGet l (index + direction) with
    | none => rw [h1] at h; cases h
    | some a =>
      rw [h1, Option.some_bind] at h
      cases h2 : pyGet l index with
      | none => rw [h2] at h; cases h
      | some bb =>
        rw [h2, Option.some_bind] at h
        cases h3 : pySet l index a with
        | none => rw [h3] at h; cases h
        | some l1 =>
          rw [h3, Option.some_bind] at h
          cases h4 : pySet l1 (index + direction) bb with
          | none => rw [h4] at h; cases h
          | some l2 =>
            rw [h4] at h
            simp only [Option.map_some', Option.some.injEq, Prod.mk.injEq] at h
            have e1 := pySet_length h3
            have e2 := pySet_length h4
            rw [← h.2]
            omega
  · rw [if_neg hc] at h
    cases h
    rfl

/-- Evaluation of `move_staged_item` at an in-range natural index, downward
direction — the only call shape the repair loop uses. -/
theorem move_staged_item_down (l : List String) (i : Nat) (h : i < l.length) :
    move_staged_item l (i : Int) (-1) =
      if hi : 1 ≤ i then
        some (true, (l.set i (l.getD (i-1) "")).set (i-1) (l.getD i ""))
      else some (false, l) := by
  unfold move_staged_item
  by_cases hi : 1 ≤ i
  · have hj : (i : Int) + (-1) = ((i - 1 : Nat) : Int) := by omega
    have hc : 0 ≤ (i : Int) + (-1) ∧ (i : Int) + (-1) < (l.length : Int) := by omega
    rw [if_pos hc, dif_pos hi, hj]
    have h1 : i - 1 < l.length := by omega
    rw [pyGet_natCast, pyGet_natCast, List.getElem?_eq_getElem h1,
      List.getElem?_eq_getElem h, Option.some_bind, Option.some_bind,
      pySet_natCast, if_pos h, Option.some_bind]
    have h2 : i - 1 < (l.set i (l[i-1])).length := by
      rw [List.length_set]; omega
    rw [pySet_natCast, if_pos h2, Option.map_some']
    have g1 : l.getD (i-1) "" = l[i-1] := List.getD_eq_getElem l "" h1
    have g2 : l.getD i "" = l[i] := List.getD_eq_getElem l "" h
    rw [g1, g2]
  · have h0 : i = 0 := by omega
    subst h0
    have hc : ¬ (0 ≤ ((0 : Nat) : Int) + (-1) ∧
        ((0 : Nat) : Int) + (-1) < (l.length : Int)) := by
      intro hcc
      omega
    rw [if_neg hc, dif_neg hi]

/-! ### The rank view of a staging list -/

/-- The sequence of category ranks of the categorized staged sections. -/
def rks (cats : List PipelineCategory) (l : List String) : List Int :=
  l.filterMap (rankOf cats)

/-- `_validate_order`'s recursion, expressed on the rank sequence alone. -/
def chainB : Int → List Int → Bool
  | _, [] => true
  | last, r :: rest => if r < last then false else chainB r rest

theorem validateAux_eq_chainB (cats : List PipelineCategory) :
    ∀ (l : List String) (last : Int),
      validateAux cats last l = chainB last (rks cats l)
  | [], _ => rfl
  | s :: rest, last => by
    cases h : rankOf cats s with
    | none =>
      simp only [validateAux, h, rks, List.filterMap_cons, h]
      exact validateAux_eq_chainB cats rest last
    | some r =>
      simp only [validateAux, h, rks, List.filterMap_cons, h, chainB]
      by_cases hr : r < last
      · simp [hr]
      · simp only [hr, if_false]
        exact validateAux_eq_chainB cats rest r

theorem chainB_iff_chain (rs : List Int) : ∀ (last : Int),
    chainB last rs = true ↔ List.Chain (· ≤ ·) last rs := by
  induction rs with
  | nil => intro last; simp [chainB]
  | cons r rest ih =>
    intro last
    rw [List.chain_cons, ← ih r]
    have hstep : chainB last (r :: rest) = if r < last then false else chainB r rest :=
      rfl
    rw [hstep]
    by_cases hr : r < last
    · simp only [hr, if_true]
      constructor
      · intro hcc; cases hcc
      · rintro ⟨hle, _⟩; omega
    · simp only [hr, if_false]
      constructor
      · intro hcc; exact ⟨by omega, hcc⟩
      · rintro ⟨_, hcc⟩; exact hcc

theorem chainB_sublist {last : Int} {rs rs' : List Int}
    (h : chainB last rs = true) (hs : rs'.Sublist rs) : chainB last rs' = true := by
  rw [chainB_iff_chain, List.chain_iff_pairwise] at h ⊢
  exact List.Pairwise.sublist (List.Sublist.cons₂ last hs) h

/-- Removing an element cannot introduce a rank inversion. -/
theorem validate_order_erase {cats : List PipelineCategory} {l : List String}
    (h : validate_order cats l = true) (s : String) :
    validate_order cats (l.erase s) = true := by
  unfold validate_order at h ⊢
  rw [validateAux_eq_chainB] at h ⊢
  exact chainB_sublist h (List.Sublist.filterMap _ (List.erase_sublist s l))

/-! ### Permutation facts about the list operations -/

theorem set_get_self {α : Type} (l : List α) (i : Nat) (h : i < l.length) :
    l.set i (l.get ⟨i, h⟩) = l := by
  apply List.ext_getElem (by simp)
  intro n h1 h2
  rw [List.getElem_set]
  split
  · next he => subst he; simp
  · rfl

theorem get_cons_set_perm {α : Type} (v : α) :
    ∀ (xs : List α) (j : Nat) (hj : j < xs.length),
      ((xs.get ⟨j, hj⟩) :: xs.set j v).Perm (v :: xs)
  | x :: xs, 0, _ => List.Perm.swap v x xs
  | x :: xs, j + 1, hj => by
    have ih := get_cons_set_perm v xs j (by simpa using hj)
    show ((xs.get ⟨j, _⟩) :: x :: xs.set j v).Perm (v :: x :: xs)
    exact ((List.Perm.swap x _ _).trans (ih.cons x)).trans (List.Perm.swap v x xs)

theorem set_set_perm {α : Type} :
    ∀ (l : List α) (p q : Nat) (hp : p < l.length) (hq : q < l.length),
      ((l.set p (l.get ⟨q, hq⟩)).set q (l.get ⟨p, hp⟩)).Perm l
  | [], p, _, hp, _ => absurd hp (by simp)
  | x :: xs, 0, 0, _, _ => by simp [set_get_self]
  | x :: xs, 0, j + 1, hp, hq => by
    show ((xs.get ⟨j, _⟩ :: xs).set (j + 1) x).Perm (x :: xs)
    exact get_cons_set_perm x xs j (by simpa using hq)
  | x :: xs, i + 1, 0, hp, hq => by
    show ((x :: xs.set i _).set 0 (xs.get ⟨i, _⟩)).Perm (x :: xs)
    exact get_cons_set_perm x xs i (by simpa using hp)
  | x :: xs, i + 1, j + 1, hp, hq => by
    exact (set_set_perm xs i j (by simpa using hp) (by simpa using hq)).cons x

theorem pyIdx_lt {n : Nat} {i : Int} {j : Nat} (h : pyIdx n i = some j) : j < n := by
  unfold pyIdx at h
  by_cases hc : 0 ≤ pyWrap n i ∧ pyWrap n i < (n : Int)
  · rw [if_pos hc] at h
    injection h with h
    omega
  · rw [if_neg hc] at h
    cases h

/-- Structure of a successful `move_staged_item` call: either the
bounds-rejected no-op, or a swap of the two resolved positions. -/
theorem move_staged_item_cases {l l' : List String} {index direction : Int}
    {b : Bool} (h : move_staged_item l index direction = some (b, l')) :
    (b = false ∧ l' = l) ∨
    (b = true ∧ ∃ p q, ∃ hp : p < l.length, ∃ hq : q < l.length,
      pyIdx l.length index = some p ∧
      pyIdx l.length (index + direction) = some q ∧
      l' = (l.set p (l.get ⟨q, hq⟩)).set q (l.get ⟨p, hp⟩)) := by
  unfold move_staged_item at h
  by_cases hc : 0 ≤ index + direction ∧ index + direction < (l.length : Int)
  · rw [if_pos hc] at h
    right
    unfold pyGet pySet at h
    cases hq0 : pyIdx l.length (index + direction) with
    | none => rw [hq0] at h; cases h
    | some q =>
      have hq : q < l.length := pyIdx_lt hq0
      cases hp0 : pyIdx l.length index with
      | none =>
        rw [hq0, hp0] at h
        simp only [Option.some_bind, List.getElem?_eq_getElem hq,
          Option.none_bind, Option.map_none'] at h
        exact Option.noConfusion h
      | some p =>
        have hp : p < l.length := pyIdx_lt hp0
        rw [hq0, hp0] at h
        simp only [Option.some_bind, Option.map_some',
          List.getElem?_eq_getElem hq, List.getElem?_eq_getElem hp,
          List.length_set, hq0, Option.some.injEq, Prod.mk.injEq] at h
        refine ⟨h.1.symm, p, q, hp, hq, rfl, rfl, ?_⟩
        rw [← h.2]
        simp [List.get_eq_getElem]
  · rw [if_neg hc] at h
    injection h with h
    injection h with hb hl
    exact Or.inl ⟨hb.symm, hl.symm⟩

theorem move_staged_item_perm {l l' : List String} {index direction : Int}
    {b : Bool} (h : move_staged_item l index direction = some (b, l')) :
    l'.Perm l := by
  rcases move_staged_item_cases h with ⟨_, rfl⟩ | ⟨_, p, q, hp, hq, _, _, rfl⟩
  · exact List.Perm.refl _
  · by_cases hpq : p = q
    · subst hpq
      rw [set_get_self, set_get_self]
    · exact set_set_perm l p q hp hq

/-! ### Concrete registries used for counterexamples and witnesses -/

/-- A two-category registry matching the spec's §8 example scenario. -/
def demoCats : List PipelineCategory :=
  [⟨"Prep", SelectionMode.MULTI, 1, ["A", "B"]⟩,
   ⟨"SfM", SelectionMode.SINGLE, 2, ["C", "D"]⟩]

/-- A registry whose single category has `stage_index = -2`, i.e. below the
`last_index = -1` sentinel used by `_validate_order` and the repair loop. -/
def negCats : List PipelineCategory :=
  [⟨"Neg", SelectionMode.MULTI, -2, ["a"]⟩]

/-! ### C10 — totality of `move_staged_item` -/

/-- C10 counterexample: on the one-element list `["a"]`, the call
`move_staged_item(1, -1)` has target index `0 ∈ [0, n)`, so the claim says it
swaps and returns success; the code instead evaluates `staged_sections[1]` on
the right-hand side of the swap assignment and raises IndexError (`none`). -/
theorem c10_counterexample : move_staged_item ["a"] 1 (-1) = none := rfl

/-- C10 (amended): `move_staged_item` is total for every in-range start
start index `0 ≤ index < n` and direction in {-1, +1}: if `index + direction` lies
outside `[0, n)` it returns failure and leaves the list unchanged, otherwise
it swaps the adjacent elements and returns success.  (For a start index
outside `[0, n)` the call may instead raise IndexError — see the
counterexample — or wrap around Python-style.) -/
theorem c10_move_total_on_range (l : List String) (i : Nat) (d : Int)
    (hi : i < l.length) (_hd : d = -1 ∨ d = 1) :
    (¬ (0 ≤ (i : Int) + d ∧ (i : Int) + d < (l.length : Int)) →
      move_staged_item l (i : Int) d = some (false, l)) ∧
    (∀ j : Nat, (i : Int) + d = (j : Int) → j < l.length →
      move_staged_item l (i : Int) d =
        some (true, (l.set i (l.getD j "")).set j (l.getD i ""))) := by
  constructor
  · intro hc
    unfold move_staged_item
    rw [if_neg hc]
  · intro j hj hjl
    unfold move_staged_item
    have hc : 0 ≤ (i : Int) + d ∧ (i : Int) + d < (l.length : Int) := by omega
    rw [if_pos hc, hj, pyGet_natCast, pyGet_natCast,
      List.getElem?_eq_getElem hjl, List.getElem?_eq_getElem hi,
      Option.some_bind, Option.some_bind, pySet_natCast, if_pos hi,
      Option.some_bind]
    have h2 : j < (l.set i (l[j])).length := by
      rw [List.length_set]; omega
    rw [pySet_natCast, if_pos h2, Option.map_some']
    rw [List.getD_eq_getElem l "" hjl, List.getD_eq_getElem l "" hi]

/-- C10 witness: the amended theorem applied to `["x", "y"]`, moving index 0
down by one. -/
theorem c10_witness : move_staged_item ["x", "y"] 0 1 = some (true, ["y", "x"]) := by
  have h := (c10_move_total_on_range ["x", "y"] 0 1 (by decide)
    (Or.inr rfl)).2 1 (by decide) (by decide)
  exact h

/-! ### C3 — the guarded `move(index, direction)` operation -/

/-- C3: with `["A", "B"]` staged (both in the MULTI category "Prep" of
`demoCats`), `move(1, +1)` has target index 2, which is out of bounds; the
claim (and spec §4.1) says the call returns failure and leaves the list
unchanged, but `_validate_movement` evaluates `staged_sections[2]` before any
bounds check and raises an uncaught IndexError (modelled as `none`). -/
theorem c3_out_of_bounds_raises : move_checked demoCats ["A", "B"] 1 1 = none :=
  rfl

/-! ### C8 — (non-)termination of the repair loop in `toggle_section_stage` -/

/-- C8 counterexample: with the registry `negCats` (category rank `-2`,
below the `-1` sentinel), the staging list `["a"]` — exactly what toggling
section `"a"` on produces — makes the repair `while` loop spin forever:
`_validate_order` is false (first rank `< -1`), yet the scan's only relocation
attempt is `move_staged_item(0, -1)`, a bounds-rejected no-op, so every pass
returns the list unchanged. -/
theorem c8_counterexample : ¬ repair_terminates negCats ["a"] := by
  rintro ⟨n, hn⟩
  have h : ∀ m, repairFuel negCats m ["a"] = none := by
    intro m
    induction m with
    | zero => rfl
    | succ k ih =>
      have hstep : repairFuel negCats (k + 1) ["a"] =
          repairFuel negCats k (one_pass negCats ["a"]) := rfl
      rw [hstep, show one_pass negCats ["a"] = ["a"] from rfl, ih]
  rw [h n] at hn
  cases hn

/-! ### Facts about the category lookup -/

theorem find_category_idx_mem {cats : List PipelineCategory} {s : String} {i : Nat} :
    find_category_idx cats s = some i →
      i < cats.length ∧ s ∈ (cats.getD i default).sections := by
  induction cats generalizing i with
  | nil => intro h; cases h
  | cons c cs ih =>
    intro h
    unfold find_category_idx at h
    by_cases hm : s ∈ c.sections
    · rw [if_pos hm] at h
      injection h with h
      subst h
      exact ⟨by simp, hm⟩
    · rw [if_neg hm] at h
      cases h0 : find_category_idx cs s with
      | none => rw [h0] at h; cases h
      | some i' =>
        rw [h0, Option.map_some'] at h
        injection h with h
        subst h
        obtain ⟨hlt, hmem⟩ := ih h0
        exact ⟨by simp; omega, by simpa using hmem⟩

theorem find_category_idx_none {cats : List PipelineCategory} {s : String} :
    find_category_idx cats s = none →
      ∀ i, i < cats.length → s ∉ (cats.getD i default).sections := by
  induction cats with
  | nil => intro _ i hi; simp at hi
  | cons c cs ih =>
    intro h i hi
    unfold find_category_idx at h
    by_cases hm : s ∈ c.sections
    · rw [if_pos hm] at h; cases h
    · rw [if_neg hm] at h
      cases i with
      | zero => simpa using hm
      | succ i' =>
        cases h0 : find_category_idx cs s with
        | none =>
          have := ih h0 i' (by simp at hi; omega)
          simpa using this
        | some j => rw [h0, Option.map_some'] at h; cases h

theorem find_category_for_section_eq {cats : List PipelineCategory} {s : String}
    {cat : PipelineCategory} (h : find_category_for_section cats s = some cat) :
    ∃ i, find_category_idx cats s = some i ∧ i < cats.length ∧
      cat = cats.getD i default ∧ s ∈ cat.sections := by
  unfold find_category_for_section at h
  cases h0 : find_category_idx cats s with
  | none => rw [h0] at h; cases h
  | some i =>
    rw [h0, Option.some_bind] at h
    obtain ⟨hlt, hmem⟩ := find_category_idx_mem h0
    rw [List.getElem?_eq_getElem hlt] at h
    injection h with h
    refine ⟨i, rfl, hlt, ?_, ?_⟩
    · rw [← h, List.getD_eq_getElem _ _ hlt]
    · rw [← h]
      rw [List.getD_eq_getElem _ _ hlt] at hmem
      exact hmem

theorem find_category_for_section_none {cats : List PipelineCategory} {s : String}
    (h : find_category_for_section cats s = none) :
    find_category_idx cats s = none := by
  unfold find_category_for_section at h
  cases h0 : find_category_idx cats s with
  | none => rfl
  | some i =>
    rw [h0, Option.some_bind] at h
    obtain ⟨hlt, _⟩ := find_category_idx_mem h0
    rw [List.getElem?_eq_getElem hlt] at h
    cases h

/-! ### The repair loop preserves the staged multiset and validates on exit -/

theorem passAux_perm (cats : List PipelineCategory) :
    ∀ (fuel : Nat) (l : List String) (i : Nat) (last : Int),
      (passAux cats fuel l i last).Perm l
  | 0, l, _, _ => List.Perm.refl l
  | fuel + 1, l, i, last => by
    simp only [passAux]
    split
    · split
      · exact passAux_perm cats fuel l (i + 1) last
      · next r heq =>
        split
        · split
          · next b' l' heq =>
            exact (passAux_perm cats fuel l' (i + 1) r).trans
              (move_staged_item_perm heq)
          · exact List.Perm.refl l
        · exact passAux_perm cats fuel l (i + 1) r
    · exact List.Perm.refl l

theorem repairFuel_some_validate {cats : List PipelineCategory} :
    ∀ {fuel : Nat} {l l' : List String}, repairFuel cats fuel l = some l' →
      validate_order cats l' = true := by
  intro fuel
  induction fuel with
  | zero => intro l l' h; cases h
  | succ n ih =>
    intro l l' h
    unfold repairFuel at h
    by_cases hv : validate_order cats l
    · rw [if_pos hv] at h
      injection h with h
      rw [← h]
      exact hv
    · rw [if_neg hv] at h
      exact ih h

theorem repairFuel_perm {cats : List PipelineCategory} :
    ∀ {fuel : Nat} {l l' : List String}, repairFuel cats fuel l = some l' →
      l'.Perm l := by
  intro fuel
  induction fuel with
  | zero => intro l l' h; cases h
  | succ n ih =>
    intro l l' h
    unfold repairFuel at h
    by_cases hv : validate_order cats l
    · rw [if_pos hv] at h
      injection h with h
      rw [← h]
    · rw [if_neg hv] at h
      exact (ih h).trans (passAux_perm cats l.length l 0 (-1))

/-! ### Facts about the single-select eviction loop -/

theorem evict_sublist :
    ∀ (cs : List String) (staged : List String) (keep : String),
      (evict staged cs keep).Sublist staged
  | [], staged, _ => List.Sublist.refl staged
  | c :: cs, staged, keep => by
    unfold evict
    by_cases hc : c ∈ staged ∧ c ≠ keep
    · rw [if_pos hc]
      exact (evict_sublist cs (staged.erase c) keep).trans
        (List.erase_sublist c staged)
    · rw [if_neg hc]
      exact evict_sublist cs staged keep

theorem evict_not_mem :
    ∀ (cs : List String) (staged : List String) (keep t : String),
      staged.Nodup → t ∈ cs → t ≠ keep → t ∉ evict staged cs keep
  | [], _, _, _, _, ht, _ => absurd ht (by simp)
  | c :: cs, staged, keep, t, hnd, ht, hne => by
    unfold evict
    have hnd' : (if c ∈ staged ∧ c ≠ keep then staged.erase c
        else staged).Nodup := by
      by_cases hc : c ∈ staged ∧ c ≠ keep
      · rw [if_pos hc]; exact List.Nodup.erase c hnd
      · rw [if_neg hc]; exact hnd
    rcases List.mem_cons.mp ht with rfl | htl
    · have hout : t ∉ (if t ∈ staged ∧ t ≠ keep then staged.erase t
          else staged) := by
        by_cases hmem : t ∈ staged
        · rw [if_pos ⟨hmem, hne⟩]
          exact List.Nodup.not_mem_erase hnd
        · rw [if_neg (fun hc => hmem hc.1)]
          exact hmem
      intro hin
      exact hout ((evict_sublist cs _ keep).subset hin)
    · exact evict_not_mem cs _ keep t hnd' htl hne

/-! ### Guarded moves preserve the rank sequence -/

theorem filterMap_set_eq {α β : Type} (f : α → Option β) :
    ∀ (l : List α) (j : Nat) (hj : j < l.length) (v : α),
      f v = f (l.get ⟨j, hj⟩) → (l.set j v).filterMap f = l.filterMap f
  | x :: xs, 0, _, v, h => by
    show (v :: xs).filterMap f = (x :: xs).filterMap f
    rw [List.filterMap_cons, List.filterMap_cons, show f v = f x from h]
  | x :: xs, j + 1, hj, v, h => by
    show (x :: xs.set j v).filterMap f = (x :: xs).filterMap f
    rw [List.filterMap_cons, List.filterMap_cons,
      filterMap_set_eq f xs j (by simpa using hj) v h]

theorem rankOf_congr {cats : List PipelineCategory} {x y : String}
    (h : find_category_idx cats x = find_category_idx cats y) :
    rankOf cats x = rankOf cats y := by
  unfold rankOf find_category_for_section
  rw [h]

/-- A successful guarded move permutes the staged list and leaves the rank
sequence untouched (the guard only lets same-category pairs swap, and
same-category sections have the same rank). -/
theorem move_checked_some {cats : List PipelineCategory}
    {l l' : List String} {index direction : Int} {b : Bool}
    (h : move_checked cats l index direction = some (b, l')) :
    l'.Perm l ∧ rks cats l' = rks cats l := by
  unfold move_checked at h
  split at h
  · cases h
  · next hval =>
    rcases move_staged_item_cases h with ⟨_, rfl⟩ | ⟨_, p, q, hp, hq, hp0, hq0, rfl⟩
    · exact ⟨List.Perm.refl _, rfl⟩
    · have hrk : rankOf cats (l.get ⟨p, hp⟩) = rankOf cats (l.get ⟨q, hq⟩) := by
        unfold validate_movement pyGet at hval
        have hco : direction + index = index + direction := by omega
        simp only [hco, hp0, hq0, Option.some_bind,
          List.getElem?_eq_getElem hp, List.getElem?_eq_getElem hq,
          Option.map_some'] at hval
        injection hval with hval
        apply rankOf_congr
        simpa using of_decide_eq_true (by simpa using hval)
      constructor
      · by_cases hpq : p = q
        · subst hpq
          rw [set_get_self, set_get_self]
        · exact set_set_perm l p q hp hq
      · by_cases hpq : p = q
        · subst hpq
          rw [set_get_self, set_get_self]
        · show ((l.set p (l.get ⟨q, hq⟩)).set q
              (l.get ⟨p, hp⟩)).filterMap (rankOf cats) = l.filterMap (rankOf cats)
          have hq' : q < (l.set p (l.get ⟨q, hq⟩)).length := by simpa using hq
          have hmid : (l.set p (l.get ⟨q, hq⟩)).get ⟨q, hq'⟩ = l.get ⟨q, hq⟩ := by
            simp only [List.get_eq_getElem]
            exact List.getElem_set_ne hpq _
          rw [filterMap_set_eq (rankOf cats) _ q hq' (l.get ⟨p, hp⟩)
              (by rw [hmid, hrk]),
            filterMap_set_eq (rankOf cats) l p hp (l.get ⟨q, hq⟩) hrk.symm]
  · next hval =>
    injection h with h
    injection h with hb hl
    rw [← hl]
    exact ⟨List.Perm.refl _, rfl⟩

/-! ### Reachable staging lists are duplicate-free -/

theorem toggle_insert_nodup {cats : List PipelineCategory} {l : List String}
    (s : String) (h : l.Nodup) : (toggle_insert cats l s).Nodup := by
  unfold toggle_insert
  by_cases hm : s ∈ l
  · rw [if_pos hm]; exact h
  · rw [if_neg hm]
    have hsub : (match find_category_for_section cats s with
        | some parent_cat =>
          if parent_cat.selection_mode = SelectionMode.SINGLE then
            evict l parent_cat.sections s
          else l
        | none => l).Sublist l := by
      split
      · next parent heq =>
        by_cases hs1 : parent.selection_mode = SelectionMode.SINGLE
        · rw [if_pos hs1]; exact evict_sublist parent.sections l s
        · rw [if_neg hs1]
      · exact List.Sublist.refl l
    rw [List.nodup_append]
    refine ⟨hsub.nodup h, List.nodup_singleton s, ?_⟩
    intro x hx hxs
    rw [List.mem_singleton] at hxs
    subst hxs
    exact hm (hsub.subset hx)

theorem reach_nodup {cats : List PipelineCategory} {l : List String}
    (h : Reach cats l) : l.Nodup := by
  induction h with
  | nil => exact List.nodup_nil
  | toggleOn _ hrep ih =>
    exact ((repairFuel_perm hrep).nodup_iff).mpr (toggle_insert_nodup _ ih)
  | toggleOff s _ ih => exact List.Nodup.erase s ih
  | move _ _ hm ih => exact (((move_checked_some hm).1).nodup_iff).mpr ih

/-- C2: for every sequence of toggle and guarded move operations applied to an
initially empty Staging List, invariant I1 — adjacent staged stages have
non-decreasing category ranks, i.e. `_validate_order` holds — is satisfied
immediately after each operation. -/
theorem c2_order_invariant (cats : List PipelineCategory) (l : List String)
    (h : Reach cats l) : validate_order cats l = true := by
  induction h with
  | nil => rfl
  | toggleOn _ hrep _ => exact repairFuel_some_validate hrep
  | toggleOff s _ ih => exact validate_order_erase ih s
  | move _ _ hm ih =>
    have h2 := (move_checked_some hm).2
    unfold validate_order at ih ⊢
    rw [validateAux_eq_chainB] at ih ⊢
    rw [show rks _ _ = rks _ _ from h2]
    exact ih

/-- C2 witness: the spec §8 scenario — toggling `A`, then `C`, then `B` of
`demoCats` on — reaches `[A, B, C]` (after repair), which validates. -/
theorem c2_witness : validate_order demoCats ["A", "B", "C"] = true :=
  c2_order_invariant demoCats ["A", "B", "C"]
    (@Reach.toggleOn demoCats ["A", "C"] "B" 2 ["A", "B", "C"]
      (@Reach.toggleOn demoCats ["A"] "C" 1 ["A", "C"]
        (@Reach.toggleOn demoCats [] "A" 1 ["A"] Reach.nil rfl) rfl) rfl)

/-! ### Invariant I2 — single-select categories -/

/-- Number of staged sections belonging to a given member list. -/
def countIn (cs : List String) (l : List String) : Nat :=
  l.countP (fun x => decide (x ∈ cs))

/-- The spec's data-model assumption (§3): a Stage belongs to exactly one
Category, i.e. distinct categories have disjoint section sets. -/
def DisjointCats (cats : List PipelineCategory) : Prop :=
  ∀ i, i < cats.length → ∀ j, j < cats.length → i ≠ j →
    ∀ x ∈ (cats.getD i default).sections, x ∉ (cats.getD j default).sections

/-- Invariant I2: every SINGLE-mode category has at most one staged section. -/
def I2holds (cats : List PipelineCategory) (l : List String) : Prop :=
  ∀ i, i < cats.length →
    (cats.getD i default).selection_mode = SelectionMode.SINGLE →
    countIn (cats.getD i default).sections l ≤ 1

theorem countIn_append_single (cs : List String) (l : List String) (s : String) :
    countIn cs (l ++ [s]) = countIn cs l + (if s ∈ cs then 1 else 0) := by
  unfold countIn
  rw [List.countP_append]
  by_cases hs : s ∈ cs <;> simp [hs, List.countP_cons]

theorem toggle_insert_I2 {cats : List PipelineCategory} {l : List String}
    (s : String) (Hdisj : DisjointCats cats) (hnd : l.Nodup)
    (hI2 : I2holds cats l) : I2holds cats (toggle_insert cats l s) := by
  intro i hi hsingle
  unfold toggle_insert
  by_cases hm : s ∈ l
  · rw [if_pos hm]
    exact hI2 i hi hsingle
  · rw [if_neg hm]
    cases hf : find_category_for_section cats s with
    | none =>
      show countIn _ (l ++ [s]) ≤ 1
      have hnone := find_category_for_section_none hf
      have hnot := find_category_idx_none hnone i hi
      rw [countIn_append_single, if_neg hnot]
      simpa using hI2 i hi hsingle
    | some parent =>
      obtain ⟨pi, hidx, hpl, hpd, hpmem⟩ := find_category_for_section_eq hf
      show countIn _ ((if parent.selection_mode = SelectionMode.SINGLE then
          evict l parent.sections s else l) ++ [s]) ≤ 1
      by_cases hpi : pi = i
      · subst hpi
        have hps : parent.selection_mode = SelectionMode.SINGLE := by
          rw [hpd]; exact hsingle
        rw [if_pos hps, countIn_append_single, if_pos (by rw [← hpd]; exact hpmem)]
        have hzero : countIn (cats.getD pi default).sections
            (evict l parent.sections s) = 0 := by
          unfold countIn
          rw [List.countP_eq_zero]
          intro x hx
          have hxl : x ∈ l := (evict_sublist parent.sections l s).subset hx
          have hxs : x ≠ s := fun he => hm (he ▸ hxl)
          simp only [decide_eq_true_eq]
          intro hxin
          exact evict_not_mem parent.sections l s x hnd
            (by rw [hpd]; exact hxin) hxs hx
        omega
      · have hnot : s ∉ (cats.getD i default).sections :=
          Hdisj pi hpl i hi hpi s (by rw [← hpd]; exact hpmem)
        have hle : countIn (cats.getD i default).sections
            (if parent.selection_mode = SelectionMode.SINGLE then
              evict l parent.sections s else l) ≤
            countIn (cats.getD i default).sections l := by
          by_cases hps : parent.selection_mode = SelectionMode.SINGLE
          · rw [if_pos hps]
            exact List.Sublist.countP_le _ (evict_sublist parent.sections l s)
          · rw [if_neg hps]
        rw [countIn_append_single, if_neg hnot]
        have := hI2 i hi hsingle
        omega

theorem reach_I2 {cats : List PipelineCategory} {l : List String}
    (Hdisj : DisjointCats cats) (h : Reach cats l) : I2holds cats l := by
  induction h with
  | nil => intro i hi _; simp [countIn]
  | @toggleOn l0 s0 fuel0 l0' hr hrep ih =>
    intro i hi hs
    have hins := toggle_insert_I2 s0 Hdisj (reach_nodup hr) ih i hi hs
    unfold countIn at hins ⊢
    rw [List.Perm.countP_eq _ (repairFuel_perm hrep)]
    exact hins
  | toggleOff s _ ih =>
    intro i hi hs
    exact le_trans (List.Sublist.countP_le _ (List.erase_sublist s _)) (ih i hi hs)
  | move _ _ hm ih =>
    intro i hi hs
    unfold countIn
    rw [List.Perm.countP_eq _ (move_checked_some hm).1]
    exact ih i hi hs

theorem eq_singleton_of_mem_of_length_le_one {α : Type} {l : List α} {a : α}
    (hm : a ∈ l) (hl : l.length ≤ 1) : l = [a] := by
  cases l with
  | nil => cases hm
  | cons x xs =>
    cases xs with
    | nil =>
      rw [List.mem_singleton] at hm
      rw [hm]
    | cons y ys => simp at hl

/-- C5: for every Category with SINGLE selection mode, immediately after a
completed toggle activating one of its stages `s` from a reachable staging
list, exactly `s` — and no other stage of that category — is staged. -/
theorem c5_single_select (cats : List PipelineCategory) {l l' : List String}
    (s : String) (fuel : Nat) (i : Nat)
    (Hdisj : DisjointCats cats) (hr : Reach cats l) (hi : i < cats.length)
    (hsingle : (cats.getD i default).selection_mode = SelectionMode.SINGLE)
    (hs : s ∈ (cats.getD i default).sections)
    (hrep : repairFuel cats fuel (toggle_insert cats l s) = some l') :
    l'.filter (fun x => decide (x ∈ (cats.getD i default).sections)) = [s] := by
  suffices hins : (toggle_insert cats l s).filter
      (fun x => decide (x ∈ (cats.getD i default).sections)) = [s] by
    have hp := List.Perm.filter
      (fun x => decide (x ∈ (cats.getD i default).sections))
      (repairFuel_perm hrep)
    rw [hins] at hp
    exact List.perm_singleton.mp hp
  unfold toggle_insert
  by_cases hm : s ∈ l
  · rw [if_pos hm]
    have hcount := reach_I2 Hdisj hr i hi hsingle
    have hsf : s ∈ l.filter (fun x => decide (x ∈ (cats.getD i default).sections)) :=
      List.mem_filter.mpr ⟨hm, by simpa using hs⟩
    have hlen : (l.filter
        (fun x => decide (x ∈ (cats.getD i default).sections))).length ≤ 1 := by
      rw [← List.countP_eq_length_filter]
      exact hcount
    exact eq_singleton_of_mem_of_length_le_one hsf hlen
  · rw [if_neg hm]
    have hfind : find_category_idx cats s ≠ none := fun hn =>
      (find_category_idx_none hn i hi) hs
    cases hf : find_category_for_section cats s with
    | none => exact absurd (find_category_for_section_none hf) hfind
    | some parent =>
      obtain ⟨pi, hidx, hpl, hpd, hpmem⟩ := find_category_for_section_eq hf
      have hpi : pi = i := by
        by_contra hne
        exact (Hdisj pi hpl i hi hne s (by rw [← hpd]; exact hpmem)) hs
      subst hpi
      have hps : parent.selection_mode = SelectionMode.SINGLE := by
        rw [hpd]; exact hsingle
      show ((if parent.selection_mode = SelectionMode.SINGLE then
          evict l parent.sections s else l) ++ [s]).filter _ = [s]
      rw [if_pos hps, List.filter_append]
      have hev : (evict l parent.sections s).filter
          (fun x => decide (x ∈ (cats.getD pi default).sections)) = [] := by
        rw [List.filter_eq_nil_iff]
        intro x hx
        have hxl : x ∈ l := (evict_sublist parent.sections l s).subset hx
        have hxs : x ≠ s := fun he => hm (he ▸ hxl)
        simp only [decide_eq_true_eq]
        intro hxin
        exact evict_not_mem parent.sections l s x (reach_nodup hr)
          (by rw [hpd]; exact hxin) hxs hx
      rw [hev, List.nil_append, List.filter_singleton]
      have hsd : decide (s ∈ (cats.getD pi default).sections) = true := by
        simpa using hs
      rw [hsd, cond_true]

/-- C5 witness: from the reachable list `[A, B, C]` of `demoCats`, toggling
`D` (SINGLE category "SfM") on evicts `C` and stages exactly `D`. -/
theorem c5_witness : (["A", "B", "D"] : List String).filter
    (fun x => decide (x ∈ (demoCats.getD 1 default).sections)) = ["D"] :=
  c5_single_select demoCats "D" 1 1
    (by
      intro i hi j hj hne x hx hx'
      simp only [demoCats, List.length_cons, List.length_nil] at hi hj
      interval_cases i <;> interval_cases j <;> simp_all [demoCats] <;>
        rcases hx with rfl | rfl <;> rcases hx' with h' | h' <;>
          exact absurd h' (by decide))
    (@Reach.toggleOn demoCats ["A", "C"] "B" 2 ["A", "B", "C"]
      (@Reach.toggleOn demoCats ["A"] "C" 1 ["A", "C"]
        (@Reach.toggleOn demoCats [] "A" 1 ["A"] Reach.nil rfl) rfl) rfl)
    (by decide) (by decide) (by decide) rfl

/-! ### A termination measure for the repair loop -/

/-- Number of rank inversions in a rank sequence. -/
def inv : List Int → Nat
  | [] => 0
  | r :: rest => rest.countP (fun x => decide (x < r)) + inv rest

/-- Number of staged sections that belong to some category. -/
def catCnt (cats : List PipelineCategory) (l : List String) : Nat :=
  l.countP (fun s => (rankOf cats s).isSome)

/-- Number of uncategorized sections. -/
def uncatCnt (cats : List PipelineCategory) (l : List String) : Nat :=
  l.countP (fun s => !(rankOf cats s).isSome)

/-- Number of pairs (uncategorized section, categorized section after it):
swapping a categorized section backward past an uncategorized one decreases
this while leaving the rank sequence unchanged. -/
def uncatDisp (cats : List PipelineCategory) : List String → Nat
  | [] => 0
  | s :: rest =>
    (if (rankOf cats s).isSome then 0 else catCnt cats rest) + uncatDisp cats rest

/-- The combined measure: every relocation performed by the repair scan
strictly decreases it (under ranks ≥ -1). -/
def measureM (cats : List PipelineCategory) (l : List String) : Nat :=
  inv (rks cats l) + uncatDisp cats l

theorem inv_append (A B : List Int) :
    inv (A ++ B) = inv A + inv B +
      (A.map (fun x => B.countP (fun y => decide (y < x)))).sum := by
  induction A with
  | nil => simp [inv]
  | cons a A' ih =>
    show inv (a :: (A' ++ B)) = _
    rw [show inv (a :: (A' ++ B)) =
        (A' ++ B).countP (fun x => decide (x < a)) + inv (A' ++ B) from rfl,
      List.countP_append, ih]
    simp [inv, List.map_cons, List.sum_cons]
    omega

theorem inv_swap_adj (A B : List Int) (rp r : Int) (h : r < rp) :
    inv (A ++ r :: rp :: B) + 1 = inv (A ++ rp :: r :: B) := by
  rw [inv_append, inv_append]
  have hmap : A.map (fun x => (r :: rp :: B).countP (fun y => decide (y < x))) =
      A.map (fun x => (rp :: r :: B).countP (fun y => decide (y < x))) := by
    apply List.map_congr_left
    intro x _
    simp only [List.countP_cons]
    omega
  rw [hmap]
  have h1 : inv (r :: rp :: B) =
      B.countP (fun x => decide (x < r)) + B.countP (fun x => decide (x < rp)) +
        inv B + (if rp < r then 1 else 0) := by
    show (rp :: B).countP (fun x => decide (x < r)) + inv (rp :: B) = _
    rw [show inv (rp :: B) = B.countP (fun x => decide (x < rp)) + inv B from rfl,
      List.countP_cons]
    by_cases hc : rp < r <;> simp [hc] <;> omega
  have h2 : inv (rp :: r :: B) =
      B.countP (fun x => decide (x < r)) + B.countP (fun x => decide (x < rp)) +
        inv B + (if r < rp then 1 else 0) := by
    show (r :: B).countP (fun x => decide (x < rp)) + inv (r :: B) = _
    rw [show inv (r :: B) = B.countP (fun x => decide (x < r)) + inv B from rfl,
      List.countP_cons]
    by_cases hc : r < rp <;> simp [hc] <;> omega
  rw [h1, h2]
  have hc1 : ¬ (rp < r) := by omega
  rw [if_neg hc1, if_pos h]
  omega

theorem catCnt_append (cats : List PipelineCategory) (A B : List String) :
    catCnt cats (A ++ B) = catCnt cats A + catCnt cats B :=
  List.countP_append _ A B

theorem uncatDisp_append (cats : List PipelineCategory) (A B : List String) :
    uncatDisp cats (A ++ B) =
      uncatDisp cats A + uncatDisp cats B + uncatCnt cats A * catCnt cats B := by
  induction A with
  | nil => simp [uncatDisp, uncatCnt, catCnt]
  | cons a A' ih =>
    show (if (rankOf cats a).isSome then 0 else catCnt cats (A' ++ B)) +
        uncatDisp cats (A' ++ B) = _
    rw [catCnt_append, ih]
    have hstep : uncatDisp cats (a :: A') =
        (if (rankOf cats a).isSome then 0 else catCnt cats A') +
          uncatDisp cats A' := rfl
    have hcnt : uncatCnt cats (a :: A') =
        (if (rankOf cats a).isSome then 0 else 1) + uncatCnt cats A' := by
      unfold uncatCnt
      rw [List.countP_cons]
      by_cases hc : (rankOf cats a).isSome <;> simp [hc] <;> omega
    rw [hstep, hcnt]
    by_cases hc : (rankOf cats a).isSome <;> simp [hc] <;> ring

/-- Swapping a categorized section backward past an uncategorized neighbour
decreases the measure by exactly one (rank sequence unchanged, one
uncat-before-cat pair removed). -/
theorem measure_swap_uncat {cats : List PipelineCategory} (A B : List String)
    {u s : String} (hu : rankOf cats u = none)
    (hs : (rankOf cats s).isSome) :
    measureM cats (A ++ s :: u :: B) + 1 = measureM cats (A ++ u :: s :: B) := by
  obtain ⟨r, hr⟩ := Option.isSome_iff_exists.mp hs
  unfold measureM
  have hrk : rks cats (A ++ s :: u :: B) = rks cats (A ++ u :: s :: B) := by
    unfold rks
    rw [List.filterMap_append, List.filterMap_append]
    simp [List.filterMap_cons, hu, hr]
  rw [hrk, uncatDisp_append, uncatDisp_append]
  have hc : catCnt cats (s :: u :: B) = catCnt cats (u :: s :: B) := by
    unfold catCnt
    simp only [List.countP_cons]
    omega
  rw [hc]
  have h1 : uncatDisp cats (s :: u :: B) = catCnt cats B + uncatDisp cats B := by
    show (if (rankOf cats s).isSome then 0 else _) +
      ((if (rankOf cats u).isSome then 0 else catCnt cats B) + uncatDisp cats B) = _
    rw [if_pos hs, if_neg (by simp [hu])]
    omega
  have h2 : uncatDisp cats (u :: s :: B) =
      1 + catCnt cats B + uncatDisp cats B := by
    show (if (rankOf cats u).isSome then 0 else catCnt cats (s :: B)) +
      ((if (rankOf cats s).isSome then 0 else catCnt cats B) + uncatDisp cats B) = _
    rw [if_neg (by simp [hu]), if_pos hs]
    have : catCnt cats (s :: B) = 1 + catCnt cats B := by
      unfold catCnt
      rw [List.countP_cons]
      simp [hs]
      omega
    omega
  rw [h1, h2]
  omega

/-- Swapping a lower-ranked section backward past a higher-ranked neighbour
decreases the measure by exactly one (one inversion removed, uncat pairs
unchanged). -/
theorem measure_swap_cat {cats : List PipelineCategory} (A B : List String)
    {p s : String} {rp r : Int} (hp : rankOf cats p = some rp)
    (hs : rankOf cats s = some r) (hlt : r < rp) :
    measureM cats (A ++ s :: p :: B) + 1 = measureM cats (A ++ p :: s :: B) := by
  unfold measureM
  have hd : uncatDisp cats (A ++ s :: p :: B) =
      uncatDisp cats (A ++ p :: s :: B) := by
    rw [uncatDisp_append, uncatDisp_append]
    have hc : catCnt cats (s :: p :: B) = catCnt cats (p :: s :: B) := by
      unfold catCnt
      simp only [List.countP_cons]
      omega
    rw [hc]
    have h1 : uncatDisp cats (s :: p :: B) = uncatDisp cats B := by
      show (if (rankOf cats s).isSome then 0 else _) +
        ((if (rankOf cats p).isSome then 0 else _) + uncatDisp cats B) = _
      rw [if_pos (by simp [hs]), if_pos (by simp [hp])]
      omega
    have h2 : uncatDisp cats (p :: s :: B) = uncatDisp cats B := by
      show (if (rankOf cats p).isSome then 0 else _) +
        ((if (rankOf cats s).isSome then 0 else _) + uncatDisp cats B) = _
      rw [if_pos (by simp [hp]), if_pos (by simp [hs])]
      omega
    rw [h1, h2]
  have h1 : rks cats (A ++ s :: p :: B) = rks cats A ++ r :: rp :: rks cats B := by
    unfold rks
    rw [List.filterMap_append]
    simp [List.filterMap_cons, hs, hp]
  have h2 : rks cats (A ++ p :: s :: B) = rks cats A ++ rp :: r :: rks cats B := by
    unfold rks
    rw [List.filterMap_append]
    simp [List.filterMap_cons, hs, hp]
  rw [hd, h1, h2, ← inv_swap_adj (rks cats A) (rks cats B) rp r hlt]
  omega

/-! ### Evaluating one scan iteration at a decomposed list -/

theorem get_append_len :
    ∀ (X : List String) (s : String) (Y : List String)
      (h : X.length < (X ++ s :: Y).length),
      (X ++ s :: Y).get ⟨X.length, h⟩ = s
  | [], _, _, _ => rfl
  | x :: X', s, Y, h => get_append_len X' s Y (by simpa using h)

theorem set_append_len :
    ∀ (X : List String) (a : String) (Y : List String) (v : String),
      (X ++ a :: Y).set X.length v = X ++ v :: Y
  | [], _, _, _ => rfl
  | x :: X', a, Y, v => by
    show x :: (X' ++ a :: Y).set X'.length v = _
    rw [set_append_len X' a Y v]
    rfl

theorem getD_append_len :
    ∀ (X : List String) (a : String) (Y : List String),
      (X ++ a :: Y).getD X.length "" = a
  | [], _, _ => rfl
  | x :: X', a, Y => getD_append_len X' a Y

/-- The relocation `move_staged_item(index, -1)` performed by the repair scan
at position `X'.length + 1` of `X' ++ [p, s] ++ Y` swaps `p` and `s`. -/
theorem move_swap_eval (X' : List String) (p s : String) (Y : List String) :
    move_staged_item (X' ++ p :: s :: Y) (((X'.length + 1 : Nat) : Int)) (-1) =
      some (true, X' ++ s :: p :: Y) := by
  have hlen : X'.length + 1 < (X' ++ p :: s :: Y).length := by simp
  rw [move_staged_item_down _ _ hlen, dif_pos (by omega)]
  have e1 : X'.length + 1 - 1 = X'.length := by omega
  rw [e1, getD_append_len X' p (s :: Y)]
  have e2 : (X' ++ p :: s :: Y).getD (X'.length + 1) "" = s := by
    have : X' ++ p :: s :: Y = (X' ++ [p]) ++ s :: Y := by simp
    rw [this, show X'.length + 1 = (X' ++ [p]).length by simp,
      getD_append_len (X' ++ [p]) s Y]
  rw [e2]
  have e3 : (X' ++ p :: s :: Y).set (X'.length + 1) p = X' ++ p :: p :: Y := by
    have : X' ++ p :: s :: Y = (X' ++ [p]) ++ s :: Y := by simp
    rw [this, show X'.length + 1 = (X' ++ [p]).length by simp,
      set_append_len (X' ++ [p]) s Y p]
    simp
  rw [e3, set_append_len X' p (p :: Y) s]

/-- The scan invariant about the element just before the cursor: if it is
categorized, its rank is at least the accumulator `last`. -/
def prevOK (cats : List PipelineCategory) (last : Int) (p : String) : Prop :=
  ∀ rp, rankOf cats p = some rp → last ≤ rp

theorem rankOf_ge {cats : List PipelineCategory}
    (Hr : ∀ c ∈ cats, -1 ≤ c.stage_index) {s : String} {r : Int}
    (h : rankOf cats s = some r) : -1 ≤ r := by
  unfold rankOf at h
  cases hf : find_category_for_section cats s with
  | none => rw [hf] at h; cases h
  | some c =>
    rw [hf, Option.map_some'] at h
    injection h with h
    obtain ⟨i, _, hlt, hcd, _⟩ := find_category_for_section_eq hf
    have hmem : c ∈ cats := by
      rw [hcd, List.getD_eq_getElem _ _ hlt]
      exact List.getElem_mem hlt
    rw [← h]
    exact Hr c hmem

/-- The scan invariant induction: one pass of the repair loop never increases
the measure, and strictly decreases it when the remaining suffix violates the
order check.  `X` is the already-scanned prefix, `Y` the remaining suffix,
`last` the accumulator. -/
theorem passAux_measure (cats : List PipelineCategory)
    (Hr : ∀ c ∈ cats, -1 ≤ c.stage_index) :
    ∀ (Y X : List String) (last : Int),
      -1 ≤ last → (X = [] → last = -1) →
      (∀ p, X.getLast? = some p → prevOK cats last p) →
      measureM cats (passAux cats Y.length (X ++ Y) X.length last) ≤
        measureM cats (X ++ Y) ∧
      (validateAux cats last Y = false →
        measureM cats (passAux cats Y.length (X ++ Y) X.length last) <
          measureM cats (X ++ Y))
  | [], X, last, _, _, _ => by
    refine ⟨le_refl _, fun hfalse => ?_⟩
    exact Bool.noConfusion hfalse
  | s :: rest, X, last, hlast, hX0, hprev => by
    have hlen : X.length < (X ++ s :: rest).length := by simp
    have hget := get_append_len X s rest hlen
    have hunf : passAux cats (rest.length + 1) (X ++ s :: rest) X.length last =
        match rankOf cats s with
        | none => passAux cats rest.length (X ++ s :: rest) (X.length + 1) last
        | some r =>
          if r < last then
            match move_staged_item (X ++ s :: rest) ((X.length : Nat) : Int) (-1) with
            | some (_, l') => passAux cats rest.length l' (X.length + 1) r
            | none => X ++ s :: rest
          else passAux cats rest.length (X ++ s :: rest) (X.length + 1) r := by
      simp only [passAux]
      rw [dif_pos hlen, hget]
    show measureM cats (passAux cats (rest.length + 1) (X ++ s :: rest)
        X.length last) ≤ measureM cats (X ++ s :: rest) ∧
      (validateAux cats last (s :: rest) = false →
        measureM cats (passAux cats (rest.length + 1) (X ++ s :: rest)
          X.length last) < measureM cats (X ++ s :: rest))
    cases hrk : rankOf cats s with
    | none =>
      rw [hrk] at hunf
      have hunf' : passAux cats (rest.length + 1) (X ++ s :: rest) X.length last =
          passAux cats rest.length (X ++ s :: rest) (X.length + 1) last := hunf
      have ih := passAux_measure cats Hr rest (X ++ [s]) last hlast
        (by intro habs; simp at habs)
        (by
          intro p hp
          rw [List.getLast?_concat] at hp
          injection hp with hp
          subst hp
          intro rp hrp
          rw [hrk] at hrp
          cases hrp)
      rw [show (X ++ [s]) ++ rest = X ++ s :: rest by simp,
        show (X ++ [s]).length = X.length + 1 by simp] at ih
      have hval : validateAux cats last (s :: rest) = validateAux cats last rest := by
        simp only [validateAux, hrk]
      rw [hunf', hval]
      exact ih
    | some r =>
      rw [hrk] at hunf
      have hrge : -1 ≤ r := rankOf_ge Hr hrk
      by_cases hr : r < last
      · -- relocation: the previous element exists and the swap fires
        have hXne : X ≠ [] := by
          intro h0
          have := hX0 h0
          omega
        rcases List.eq_nil_or_concat X with h0 | ⟨X', p, hXc⟩
        · exact absurd h0 hXne
        rw [List.concat_eq_append] at hXc
        subst hXc
        have hprevP : prevOK cats last p :=
          hprev p (List.getLast?_concat X')
        have hXlen : (X' ++ [p]).length = X'.length + 1 := by simp
        have hXlist : (X' ++ [p]) ++ s :: rest = X' ++ p :: s :: rest := by simp
        have hmv : move_staged_item ((X' ++ [p]) ++ s :: rest)
            (((X' ++ [p]).length : Nat) : Int) (-1) =
            some (true, X' ++ s :: p :: rest) := by
          rw [hXlist, hXlen]
          exact move_swap_eval X' p s rest
        rw [hmv] at hunf
        have hunf1 : passAux cats (rest.length + 1) ((X' ++ [p]) ++ s :: rest)
            (X' ++ [p]).length last =
            if r < last then
              passAux cats rest.length (X' ++ s :: p :: rest)
                ((X' ++ [p]).length + 1) r
            else
              passAux cats rest.length ((X' ++ [p]) ++ s :: rest)
                ((X' ++ [p]).length + 1) r := hunf
        have hunf' : passAux cats (rest.length + 1) ((X' ++ [p]) ++ s :: rest)
            (X' ++ [p]).length last =
            passAux cats rest.length (X' ++ s :: p :: rest)
              ((X' ++ [p]).length + 1) r := by
          rw [hunf1, if_pos hr]
        -- measure decrease of the swap itself
        have hdec : measureM cats (X' ++ s :: p :: rest) + 1 =
            measureM cats (X' ++ p :: s :: rest) := by
          cases hrkp : rankOf cats p with
          | none =>
            exact measure_swap_uncat X' rest hrkp (by simp [hrk])
          | some rp =>
            have hple : last ≤ rp := hprevP rp hrkp
            exact measure_swap_cat X' rest hrkp hrk (by omega)
        -- induction on the remaining suffix
        have ih := passAux_measure cats Hr rest (X' ++ [s, p]) r hrge
          (by intro habs; simp at habs)
          (by
            intro p' hp'
            rw [show X' ++ [s, p] = (X' ++ [s]) ++ [p] by simp,
              List.getLast?_concat] at hp'
            injection hp' with hp'
            subst hp'
            intro rp hrp
            have := hprevP rp hrp
            omega)
        rw [show (X' ++ [s, p]) ++ rest = X' ++ s :: p :: rest by simp,
          show (X' ++ [s, p]).length = (X' ++ [p]).length + 1 by simp] at ih
        rw [hunf', hXlist]
        have hle := ih.1
        constructor
        · omega
        · intro _
          omega
      · -- no relocation at this position
        have hunf1 : passAux cats (rest.length + 1) (X ++ s :: rest) X.length last =
            if r < last then
              match move_staged_item (X ++ s :: rest) ((X.length : Nat) : Int) (-1) with
              | some (_, l') => passAux cats rest.length l' (X.length + 1) r
              | none => X ++ s :: rest
            else passAux cats rest.length (X ++ s :: rest) (X.length + 1) r := hunf
        have hunf' : passAux cats (rest.length + 1) (X ++ s :: rest) X.length last =
            passAux cats rest.length (X ++ s :: rest) (X.length + 1) r := by
          rw [hunf1, if_neg hr]
        have ih := passAux_measure cats Hr rest (X ++ [s]) r hrge
          (by intro habs; simp at habs)
          (by
            intro p hp
            rw [List.getLast?_concat] at hp
            injection hp with hp
            subst hp
            intro rp hrp
            rw [hrk] at hrp
            injection hrp with hrp
            omega)
        rw [show (X ++ [s]) ++ rest = X ++ s :: rest by simp,
          show (X ++ [s]).length = X.length + 1 by simp] at ih
        have hval : validateAux cats last (s :: rest) = validateAux cats r rest := by
          simp only [validateAux, hrk, if_neg hr]
        rw [hunf', hval]
        exact ih

/-- When the order check fails, one full pass of the repair loop strictly
decreases the measure. -/
theorem one_pass_measure {cats : List PipelineCategory}
    (Hr : ∀ c ∈ cats, -1 ≤ c.stage_index) {l : List String}
    (hv : validate_order cats l = false) :
    measureM cats (one_pass cats l) < measureM cats l := by
  have h := (passAux_measure cats Hr l [] (-1) (le_refl _) (fun _ => rfl)
    (by intro p hp; exact Option.noConfusion hp)).2 hv
  simpa using h

/-- C8 (amended): the bubble-style repair loop inside
`toggle_section_stage` terminates on every staging list, provided every
category's `stage_index` is at least `-1` (the sentinel value `last_index`
starts from; the intended ranks 1, 2, … satisfy this).  For a category rank
below `-1` the loop spins forever — see the counterexample. -/
theorem c8_repair_terminates (cats : List PipelineCategory)
    (Hr : ∀ c ∈ cats, -1 ≤ c.stage_index) (l : List String) :
    repair_terminates cats l := by
  suffices H : ∀ (m : Nat) (l : List String), measureM cats l ≤ m →
      repair_terminates cats l from H (measureM cats l) l (le_refl _)
  intro m
  induction m with
  | zero =>
    intro l hm
    by_cases hv : validate_order cats l
    · exact ⟨1, by simp [repairFuel, hv]⟩
    · have hvf : validate_order cats l = false := by simpa using hv
      have := one_pass_measure Hr hvf
      omega
  | succ k ih =>
    intro l hm
    by_cases hv : validate_order cats l
    · exact ⟨1, by simp [repairFuel, hv]⟩
    · have hvf : validate_order cats l = false := by simpa using hv
      have hdec := one_pass_measure Hr hvf
      obtain ⟨n, hn⟩ := ih (one_pass cats l) (by omega)
      exact ⟨n + 1, by simpa [repairFuel, hvf] using hn⟩

/-- C8 witness: the repair loop terminates on the out-of-order list
`["C", "A"]` over `demoCats` (all ranks ≥ -1). -/
theorem c8_witness : repair_terminates demoCats ["C", "A"] :=
  c8_repair_terminates demoCats (by decide) ["C", "A"]

/-! ### Configuration model (src/core/state_models.py) and path injection
(src/sections/base_section.py) -/

/-- src/core/state_models.py `GlobalContext`. -/
structure GlobalContext where
  project_root : String := ""
  input_video_path : String := ""
  input_dir : String := ""
  output_dir : String := ""
deriving DecidableEq, Repr, Inhabited

/-- src/core/state_models.py `PipelineConfiguration`: the settings store maps
a section name to its key→value bag.  Python dicts become function models;
values are the strings the engine writes. -/
structure PipelineConfiguration where
  global_context : GlobalContext
  section_settings : String → Option (String → Option String)

/-- `get_section_config`, as the value read: the section's bag, or an empty
bag when absent.  (The lazy insertion of the empty dict that the Python
method performs is observationally the identity for every later read.) -/
def get_section_config (cfg : PipelineConfiguration) (section_name : String) :
    String → Option String :=
  (cfg.section_settings section_name).getD (fun _ => none)

/-- `update_section_config`: write one key of one section's bag. -/
def update_section_config (cfg : PipelineConfiguration)
    (section_name key : String) (value : String) : PipelineConfiguration :=
  { cfg with
    section_settings := fun n =>
      if n = section_name then
        some (fun k =>
          if k = key then some value else get_section_config cfg section_name k)
      else cfg.section_settings n }

/-- A staged section object (src/sections/base_section.py `PipelineSection`):
name, the (abstract) result of its `validate()`, the (abstract, opaque)
command its `build_command()` produces, and the two transient path fields. -/
structure PipelineSection where
  name : String
  validates : Bool
  command : List String
  input_path : String
  output_path : String
deriving DecidableEq, Repr, Inhabited

/-- Fallback object for out-of-range `getD` reads in the model. -/
def defaultSec : PipelineSection := default

/-- src/sections/base_section.py lines 31-39, `set_paths`: set the two path
fields and mirror them into the shared settings store under the section's
name at keys "input_dir" and "output_dir". -/
def set_paths (sec : PipelineSection) (cfg : PipelineConfiguration)
    (input_path output_path : String) : PipelineSection × PipelineConfiguration :=
  ({ sec with input_path := input_path, output_path := output_path },
    update_section_config
      (update_section_config cfg sec.name "input_dir" input_path)
      sec.name "output_dir" output_path)

/-- Configurations are equal when their components agree pointwise. -/
theorem config_ext {a b : PipelineConfiguration}
    (h1 : a.global_context = b.global_context)
    (h2 : ∀ n, a.section_settings n = b.section_settings n) : a = b := by
  cases a
  cases b
  simp only [PipelineConfiguration.mk.injEq]
  exact ⟨h1, funext h2⟩

/-- C9: `set_paths(i, o)` mutates only the stage's two path fields and its own
settings bag at keys "input_dir"/"output_dir" (set to `i` and `o`); every
other section name's bag, every other key of its own bag, and the Global
Context are unchanged; and a second identical call changes nothing. -/
theorem c9_set_paths_frame_idempotent (sec : PipelineSection)
    (cfg : PipelineConfiguration) (i o : String) :
    (set_paths sec cfg i o).1.input_path = i ∧
    (set_paths sec cfg i o).1.output_path = o ∧
    (set_paths sec cfg i o).1.name = sec.name ∧
    (set_paths sec cfg i o).1.validates = sec.validates ∧
    (set_paths sec cfg i o).1.command = sec.command ∧
    (set_paths sec cfg i o).2.global_context = cfg.global_context ∧
    (∀ n, n ≠ sec.name →
      (set_paths sec cfg i o).2.section_settings n = cfg.section_settings n) ∧
    get_section_config (set_paths sec cfg i o).2 sec.name "input_dir" = some i ∧
    get_section_config (set_paths sec cfg i o).2 sec.name "output_dir" = some o ∧
    (∀ k, k ≠ "input_dir" → k ≠ "output_dir" →
      get_section_config (set_paths sec cfg i o).2 sec.name k =
        get_section_config cfg sec.name k) ∧
    set_paths (set_paths sec cfg i o).1 (set_paths sec cfg i o).2 i o =
      set_paths sec cfg i o := by
  refine ⟨rfl, rfl, rfl, rfl, rfl, rfl, ?_, ?_, ?_, ?_, ?_⟩
  · intro n hn
    simp [set_paths, update_section_config, hn]
  · simp [set_paths, get_section_config, update_section_config]
  · simp [set_paths, get_section_config, update_section_config]
  · intro k hk1 hk2
    simp [set_paths, get_section_config, update_section_config, hk1, hk2]
  · refine Prod.ext rfl (config_ext rfl ?_)
    intro n
    by_cases hn : n = sec.name
    · subst hn
      simp only [set_paths, update_section_config, get_section_config,
        if_pos rfl, Option.getD_some]
      refine congrArg some ?_
      funext k
      by_cases hk2 : k = "output_dir"
      · simp [hk2]
      · by_cases hk1 : k = "input_dir" <;> simp [hk1, hk2]
    · simp [set_paths, update_section_config, hn]

/-- C9 witness at a concrete section, configuration, and path pair. -/
theorem c9_witness :
    (set_paths ⟨"alpha", true, ["run"], "", ""⟩
      ⟨default, fun _ => none⟩ "/in" "/out").2.section_settings "beta" = none ∧
    get_section_config (set_paths ⟨"alpha", true, ["run"], "", ""⟩
      ⟨default, fun _ => none⟩ "/in" "/out").2 "alpha" "input_dir" = some "/in" := by
  have h := c9_set_paths_frame_idempotent ⟨"alpha", true, ["run"], "", ""⟩
    ⟨default, fun _ => none⟩ "/in" "/out"
  exact ⟨h.2.2.2.2.2.2.1 "beta" (by decide), h.2.2.2.2.2.2.2.1⟩

/-! ### Environment validation (src/core/pipeline_manager.py lines 154-179)
and the filesystem model -/

/-- Abstract filesystem: `os.path.exists` and `os.access(.., os.W_OK)`. -/
structure FileSystem where
  pathExists : String → Bool
  writable : String → Bool

/-- posixpath `os.path.dirname`: everything up to the last slash, with the
head stripped of trailing slashes unless it is all slashes. -/
def dirname (p : String) : String :=
  let head := (p.toList.reverse.dropWhile (fun c => c ≠ '/')).reverse
  if head.all (fun c => c = '/') then String.mk head
  else String.mk ((head.reverse.dropWhile (fun c => c = '/')).reverse)

/-- `_validate_pipeline_environment`: input dir must exist; an existing
output dir must be writable; for a missing output dir, a nonempty *existing*
parent must be writable.  (A missing parent is not checked.) -/
def validate_pipeline_environment (fs : FileSystem) (g : GlobalContext) : Bool :=
  if ¬ fs.pathExists g.input_dir then false
  else if fs.pathExists g.output_dir then
    if ¬ fs.writable g.output_dir then false else true
  else
    if dirname g.output_dir ≠ "" ∧ fs.pathExists (dirname g.output_dir) ∧
        ¬ fs.writable (dirname g.output_dir) then false
    else true

/-- The failure condition exactly as claim C7 states it. -/
def c7_claimed_condition (fs : FileSystem) (g : GlobalContext) : Prop :=
  fs.pathExists g.input_dir = false ∨
  (fs.pathExists g.output_dir = true ∧ fs.writable g.output_dir = false) ∨
  (fs.pathExists g.output_dir = false ∧
    (fs.pathExists (dirname g.output_dir) = false ∨
      fs.writable (dirname g.output_dir) = false))

/-- A filesystem on which only "/in" exists (everything writable). -/
def fs7 : FileSystem := ⟨fun p => p == "/in", fun _ => true⟩

/-- Context whose output dir and its parent are both missing. -/
def g7 : GlobalContext := { input_dir := "/in", output_dir := "/missing/out" }

/-- C7 counterexample: with input existing but the output dir's parent
missing, the claim's condition holds (missing parent ⇒ failure), yet the
code returns success: it only fails when the parent *exists* and is not
writable. -/
theorem c7_counterexample :
    ¬ (validate_pipeline_environment fs7 g7 = false ↔ c7_claimed_condition fs7 g7) := by
  intro h
  have hcond : c7_claimed_condition fs7 g7 :=
    Or.inr (Or.inr ⟨rfl, Or.inl rfl⟩)
  have := h.mpr hcond
  exact Bool.noConfusion (this.symm.trans rfl : false = true)

/-- C7 (amended): environment validation fails iff the input dir is missing,
or the output dir exists but is not writable, or the output dir is missing
and its parent path is nonempty, exists, and is not writable.  (A missing or
empty parent passes — `os.makedirs` would create it later.) -/
theorem c7_env_validation_iff (fs : FileSystem) (g : GlobalContext) :
    validate_pipeline_environment fs g = false ↔
      (fs.pathExists g.input_dir = false ∨
        (fs.pathExists g.output_dir = true ∧ fs.writable g.output_dir = false) ∨
        (fs.pathExists g.output_dir = false ∧ dirname g.output_dir ≠ "" ∧
          fs.pathExists (dirname g.output_dir) = true ∧
          fs.writable (dirname g.output_dir) = false)) := by
  unfold validate_pipeline_environment
  by_cases h1 : fs.pathExists g.input_dir = true
  case neg =>
    rw [if_pos h1]
    simp only [Bool.not_eq_true] at h1
    simp [h1]
  case pos =>
    rw [if_neg (by simp [h1])]
    by_cases h2 : fs.pathExists g.output_dir = true
    case pos =>
      rw [if_pos h2]
      by_cases h3 : fs.writable g.output_dir = true
      case pos =>
        rw [if_neg (by simp [h3])]
        simp [h1, h2, h3]
      case neg =>
        rw [if_pos h3]
        simp only [Bool.not_eq_true] at h3
        simp [h1, h2, h3]
    case neg =>
      rw [if_neg h2]
      have h2f : fs.pathExists g.output_dir = false := by simpa using h2
      by_cases h4 : dirname g.output_dir ≠ "" ∧
          fs.pathExists (dirname g.output_dir) = true ∧
          ¬ fs.writable (dirname g.output_dir) = true
      · rw [if_pos h4]
        obtain ⟨ha, hb, hc⟩ := h4
        have hcf : fs.writable (dirname g.output_dir) = false := by simpa using hc
        simp [h1, h2f, ha, hb, hcf]
      · rw [if_neg h4]
        constructor
        · intro habs
          exact Bool.noConfusion habs
        · rintro (hbad | ⟨hbad, _⟩ | ⟨_, hne, hpe, hwr⟩)
          · rw [h1] at hbad
            exact Bool.noConfusion hbad
          · rw [h2f] at hbad
            exact Bool.noConfusion hbad
          · exact absurd ⟨hne, hpe, by simp [hwr]⟩ h4

/-! ### The run-time state machine (src/core/pipeline_manager.py
`run_sequence` / `_run_next_in_sequence` / `_on_sequence_step_finished`,
src/core/executor.py `AsyncExecutor.run_command`) -/

/-- The executor's single-process-guard notice (executor.py line 28). -/
def procBusyMsg : String := "[System]: A process is already running.\n"

/-- `os.path.join` for a relative second component. -/
def joinPath (a b : String) : String :=
  if a = "" then b else if a.endsWith "/" then a ++ b else a ++ "/" ++ b

/-- `os.path.join(output_dir, "intermediate", section.name)`
(pipeline_manager.py line 214). -/
def intermediate_dir (out name : String) : String :=
  joinPath (joinPath out "intermediate") name

/-- The combined mutable state of the manager, the executor and the world
during a run.  `spawned` records the commands actually handed to a process,
in order; `events` records the `(stepIndex, statusLabel)` notifications;
`queue` is the shared output channel. -/
structure RunState where
  sections : List PipelineSection
  current_step_index : Nat
  is_sequence_running : Bool
  config : PipelineConfiguration
  fs : FileSystem
  exec_running : Bool
  spawned : List (List String)
  queue : List String
  events : List (Nat × String)

/-- `_run_next_in_sequence` together with `_on_sequence_step_finished`,
driven synchronously: the external process spawned as the `n`-th one overall
exits with code `exits n` (the worker thread streams its output — abstracted
into the finished line — and fires the continuation, which advances or
aborts).  `fuel` bounds the number of steps; `run_sequence` supplies more
than the staged count, so the bound is never the reason a run stops. -/
def run_next (exits : Nat → Int) : Nat → RunState → RunState
  | 0, st => st
  | fuel + 1, st =>
    if ¬ st.is_sequence_running then st
    else if h : st.current_step_index < st.sections.length then
      let i := st.current_step_index
      let sec := st.sections.get ⟨i, h⟩
      let st0 := { st with queue := st.queue ++
        ["\n[Manager]: Starting Step " ++ toString (i + 1) ++ ": " ++
          sec.name ++ "\n"] }
      if ¬ sec.validates then
        { st0 with
          queue := st0.queue ++
            ["[Manager]: Step " ++ sec.name ++ " validation failed.\n"],
          is_sequence_running := false,
          events := st0.events ++ [(i, "Error")] }
      else
        let current_input :=
          if i = 0 then st.config.global_context.input_dir
          else (st.sections.getD (i - 1) defaultSec).output_path
        let current_output :=
          if i = st.sections.length - 1 then st.config.global_context.output_dir
          else intermediate_dir st.config.global_context.output_dir sec.name
        let fs1 := if current_output ≠ "" ∧ ¬ st.fs.pathExists current_output then
            { st.fs with
              pathExists := fun p => p == current_output || st.fs.pathExists p }
          else st.fs
        let r := set_paths sec st.config current_input current_output
        let st1 := { st0 with
          sections := st0.sections.set i r.1,
          config := r.2,
          fs := fs1,
          queue := st0.queue ++ ["   -> Input: " ++ current_input ++ "\n",
            "   -> Output: " ++ current_output ++ "\n"],
          events := st0.events ++ [(i, "Running")] }
        if st1.exec_running then
          { st1 with queue := st1.queue ++ [procBusyMsg] }
        else
          let rc := exits st1.spawned.length
          let st2 := { st1 with
            spawned := st1.spawned ++ [r.1.command],
            queue := st1.queue ++
              ["[System]: Process finished with return code " ++
                toString rc ++ "\n"] }
          if rc = 0 then
            run_next exits fuel { st2 with
              events := st2.events ++ [(i, "Completed")],
              current_step_index := i + 1 }
          else
            { st2 with
              events := st2.events ++ [(i, "Failed")],
              queue := st2.queue ++
                ["[Manager Error]: Aborted due to failed step\n"],
              is_sequence_running := false }
    else
      { st with
        queue := st.queue ++ ["[Manager]: Sequence Complete.\n"],
        is_sequence_running := false }

/-- The environment-validation step of `run_sequence` and the hand-off to
`_run_next_in_sequence` (pipeline_manager.py lines 135-141). -/
def run_sequence_env (exits : Nat → Int) (st1 : RunState) : RunState :=
  if ¬ validate_pipeline_environment st1.fs st1.config.global_context then
    { st1 with queue := st1.queue ++
      ["[Manager Error]: Dataset Validation Failed. Aborting\n"] }
  else
    run_next exits (st1.sections.length + 1)
      { st1 with current_step_index := 0, is_sequence_running := true }

/-- `run_sequence` (pipeline_manager.py lines 121-141): empty-staging guard,
advisory order check (warning only), environment validation, then start at
index 0. -/
def run_sequence (cats : List PipelineCategory) (exits : Nat → Int)
    (st : RunState) : RunState :=
  if st.sections.isEmpty then
    { st with queue := st.queue ++ ["[Manager Error]: No steps staged!\n"] }
  else
    run_sequence_env exits
      (if ¬ validate_order cats (st.sections.map (·.name)) then
        { st with queue := st.queue ++
          ["[Manager WARNING]: Pipeline appears out of order. Running anyway...\n"] }
      else st)

/-- The output path the chaining logic produces for step `i`. -/
def expectedOut (g : GlobalContext) (names : List String) (i : Nat) : String :=
  if i = names.length - 1 then g.output_dir
  else intermediate_dir g.output_dir (names.getD i "")

/-- The input path the chaining logic produces for step `i`. -/
def expectedIn (g : GlobalContext) (names : List String) (i : Nat) : String :=
  if i = 0 then g.input_dir else expectedOut g names (i - 1)

/-! ### Helper lemmas about `getD`, `set` and `map` for the run model -/

theorem getD_set_self {α : Type} (l : List α) (i : Nat) (v d : α)
    (h : i < l.length) : (l.set i v).getD i d = v := by
  rw [List.getD_eq_getElem _ _ (by simpa using h)]
  exact List.getElem_set_self (by simpa using h)

theorem getD_set_ne {α : Type} (l : List α) {i j : Nat} (v d : α)
    (hne : i ≠ j) : (l.set i v).getD j d = l.getD j d := by
  by_cases hj : j < l.length
  · rw [List.getD_eq_getElem _ _ (by simpa using hj),
      List.getD_eq_getElem _ _ hj]
    exact List.getElem_set_ne hne _
  · have h1 : (l.set i v)[j]? = none := List.getElem?_eq_none (by simp; omega)
    have h2 : l[j]? = none := List.getElem?_eq_none (by omega)
    rw [List.getD_eq_getElem?_getD, List.getD_eq_getElem?_getD, h1, h2]

theorem getD_map_name (l : List PipelineSection) (i : Nat) (h : i < l.length) :
    (l.map (·.name)).getD i "" = (l.get ⟨i, h⟩).name := by
  rw [List.getD_eq_getElem _ _ (by simpa using h)]
  simp [List.getElem_map]

theorem map_name_set_paths (l : List PipelineSection) (i : Nat)
    (h : i < l.length) (cfg : PipelineConfiguration) (a b : String) :
    (l.set i (set_paths (l.get ⟨i, h⟩) cfg a b).1).map (·.name) =
      l.map (·.name) := by
  rw [List.map_set]
  have hname : (set_paths (l.get ⟨i, h⟩) cfg a b).1.name = (l.get ⟨i, h⟩).name :=
    rfl
  rw [hname]
  have hm : i < (l.map (·.name)).length := by simpa using h
  have : (l.get ⟨i, h⟩).name = (l.map (·.name)).get ⟨i, hm⟩ := by
    simp [List.getElem_map]
  rw [this, set_get_self]

/-- `set_paths` leaves the global context untouched. -/
theorem set_paths_global (sec : PipelineSection) (cfg : PipelineConfiguration)
    (a b : String) : (set_paths sec cfg a b).2.global_context =
      cfg.global_context := rfl

/-! ### C1 — path chaining over a successful run -/

/-- The chaining invariant carried by `_run_next_in_sequence` when every
validation passes and every process exits 0: steps already executed carry the
expected chained paths, and running the rest makes that true for all steps. -/
theorem run_next_chaining (exits : Nat → Int) (hexit : ∀ n, exits n = 0)
    (g : GlobalContext) (names : List String) :
    ∀ (fuel : Nat) (st : RunState),
      st.config.global_context = g →
      st.sections.map (·.name) = names →
      (∀ s ∈ st.sections, s.validates = true) →
      st.exec_running = false →
      st.is_sequence_running = true →
      st.sections.length + 1 ≤ fuel + st.current_step_index →
      (∀ j, j < st.current_step_index →
        (st.sections.getD j defaultSec).input_path = expectedIn g names j ∧
        (st.sections.getD j defaultSec).output_path = expectedOut g names j) →
      (∀ j, j < st.sections.length →
        ((run_next exits fuel st).sections.getD j defaultSec).input_path =
          expectedIn g names j ∧
        ((run_next exits fuel st).sections.getD j defaultSec).output_path =
          expectedOut g names j) := by
  intro fuel
  induction fuel with
  | zero =>
    intro st _ _ _ _ _ hfuel hinv j hj
    exact hinv j (by omega)
  | succ f ih =>
    intro st hg hnames hval hexec hrun hfuel hinv
    simp only [run_next]
    rw [if_neg (by simp [hrun])]
    by_cases h : st.current_step_index < st.sections.length
    case neg =>
      rw [dif_neg h]
      intro j hj
      exact hinv j (by omega)
    case pos =>
      rw [dif_pos h]
      have hsecval : st.sections[st.current_step_index].validates = true :=
        hval _ (List.get_mem st.sections st.current_step_index h)
      rw [if_neg (by simp [hsecval])]
      rw [if_neg (by simpa using hexec)]
      rw [hexit, if_pos rfl]
      intro j hj
      refine ih _ ?_ ?_ ?_ ?_ ?_ ?_ ?_ j ?_
      · rw [set_paths_global]
        exact hg
      · rw [map_name_set_paths st.sections st.current_step_index h]
        exact hnames
      · intro s hs
        rcases List.mem_or_eq_of_mem_set hs with hmem | rfl
        · exact hval s hmem
        · exact hsecval
      · exact hexec
      · exact hrun
      · simp only [List.length_set]
        omega
      · intro j2 hj2
        have hj2i : j2 < st.current_step_index + 1 := by simpa using hj2
        dsimp only
        by_cases hji : j2 = st.current_step_index
        · subst hji
          rw [getD_set_self _ _ _ _ h]
          constructor
          · show (if st.current_step_index = 0 then
                st.config.global_context.input_dir
              else (st.sections.getD (st.current_step_index - 1)
                defaultSec).output_path) =
                expectedIn g names st.current_step_index
            by_cases hj0 : st.current_step_index = 0
            · rw [if_pos hj0, hg]
              unfold expectedIn
              rw [if_pos hj0]
            · rw [if_neg hj0]
              rw [(hinv (st.current_step_index - 1) (by omega)).2]
              unfold expectedIn
              rw [if_neg hj0]
          · show (if st.current_step_index = st.sections.length - 1 then
                st.config.global_context.output_dir
              else intermediate_dir st.config.global_context.output_dir
                (st.sections.get ⟨st.current_step_index, h⟩).name) =
                expectedOut g names st.current_step_index
            have hnl : names.length = st.sections.length := by
              rw [← hnames]
              simp
            unfold expectedOut
            by_cases hjl : st.current_step_index = st.sections.length - 1
            · rw [if_pos hjl, if_pos (by omega), hg]
            · rw [if_neg hjl, if_neg (by omega), hg, ← hnames,
                getD_map_name st.sections st.current_step_index h]
        · rw [getD_set_ne _ _ _ (fun he => hji he.symm)]
          exact hinv j2 (by omega)
      · simpa using hj

/-- C1: for a staged sequence that runs to successful completion (every stage
validated, every process exited 0), after the run stage 0's `input_path` is
the Global Context `input_dir`; for every `i < N-1`, stage `i`'s
`output_path` equals the intermediate path formed from
`(output_dir, "intermediate", stage i's name)` and equals stage `i+1`'s
`input_path`; and stage `N-1`'s `output_path` is the Global Context
`output_dir`. -/
theorem c1_path_chaining (cats : List PipelineCategory) (exits : Nat → Int)
    (st : RunState)
    (hne : st.sections ≠ [])
    (hval : ∀ s ∈ st.sections, s.validates = true)
    (hexit : ∀ n, exits n = 0)
    (henv : validate_pipeline_environment st.fs st.config.global_context = true)
    (hexec : st.exec_running = false) :
    (((run_sequence cats exits st).sections.getD 0 defaultSec).input_path =
      st.config.global_context.input_dir) ∧
    (∀ i, i + 1 < st.sections.length →
      ((run_sequence cats exits st).sections.getD i defaultSec).output_path =
        intermediate_dir st.config.global_context.output_dir
          ((st.sections.getD i defaultSec).name) ∧
      ((run_sequence cats exits st).sections.getD (i + 1) defaultSec).input_path =
        ((run_sequence cats exits st).sections.getD i defaultSec).output_path) ∧
    (((run_sequence cats exits st).sections.getD (st.sections.length - 1)
        defaultSec).output_path = st.config.global_context.output_dir) := by
  have hmain : ∀ j, j < st.sections.length →
      ((run_sequence cats exits st).sections.getD j defaultSec).input_path =
        expectedIn st.config.global_context (st.sections.map (·.name)) j ∧
      ((run_sequence cats exits st).sections.getD j defaultSec).output_path =
        expectedOut st.config.global_context (st.sections.map (·.name)) j := by
    unfold run_sequence
    rw [if_neg (by simpa using hne)]
    by_cases hord : validate_order cats (st.sections.map (·.name))
    · rw [if_neg (by simp [hord])]
      unfold run_sequence_env
      rw [if_neg (by simp [henv])]
      intro j hj
      refine run_next_chaining exits hexit st.config.global_context
        (st.sections.map (·.name)) (st.sections.length + 1)
        ({ st with current_step_index := 0, is_sequence_running := true })
        rfl rfl hval hexec rfl ?_ ?_ j (by simpa using hj)
      · simp
      · intro j2 hj2
        simp at hj2
    · rw [if_pos (by simp [hord])]
      unfold run_sequence_env
      rw [if_neg (by simp [henv])]
      intro j hj
      have hch := run_next_chaining exits hexit st.config.global_context
        (st.sections.map (·.name)) (st.sections.length + 1)
        { st with
          current_step_index := 0
          is_sequence_running := true
          queue := st.queue ++
            ["[Manager WARNING]: Pipeline appears out of order. Running anyway...\n"] }
        rfl rfl hval hexec rfl (by simp) (by intro j2 hj2; simp at hj2)
      exact hch j (by simpa using hj)
  have hlen : 0 < st.sections.length := by
    cases hs : st.sections with
    | nil => exact absurd hs hne
    | cons a l => simp
  have hnl : (st.sections.map (·.name)).length = st.sections.length := by simp
  refine ⟨?_, ?_, ?_⟩
  · rw [(hmain 0 hlen).1]
    rfl
  · intro i hi
    constructor
    · rw [(hmain i (by omega)).2]
      unfold expectedOut
      rw [if_neg (by omega), getD_map_name st.sections i (by omega)]
      congr 1
      rw [List.getD_eq_getElem _ _ (by omega)]
      rfl
    · rw [(hmain (i + 1) hi).1, (hmain i (by omega)).2]
      unfold expectedIn
      rw [if_neg (by omega)]
      rfl
  · rw [(hmain (st.sections.length - 1) (by omega)).2]
    unfold expectedOut
    rw [if_pos (by omega)]

/-! ### C4 — nonzero exit aborts, zero exit advances -/

/-- Status notifications are only ever appended during a run. -/
theorem run_next_events_mono (exits : Nat → Int) :
    ∀ (fuel : Nat) (st : RunState) (x : Nat × String),
      x ∈ st.events → x ∈ (run_next exits fuel st).events := by
  intro fuel
  induction fuel with
  | zero => intro st x hx; exact hx
  | succ f ih =>
    intro st x hx
    simp only [run_next]
    split
    · exact hx
    · split
      · split
        · simp [hx]
        · split
          · simp [hx]
          · split
            · apply ih
              simp [hx]
            · simp [hx]
      · exact hx

/-- The step induction behind C4: from a mid-run state whose earlier steps
all succeeded, the step with index `k` decides the run: a nonzero exit marks
it "Failed" and stops with exactly `k + 1` processes ever spawned; a zero
exit marks it "Completed" and the run moves on (terminating cleanly after the
last stage, or proceeding to stage `k + 1`). -/
theorem run_next_c4 (exits : Nat → Int) :
    ∀ (fuel : Nat) (st : RunState) (k : Nat),
      st.is_sequence_running = true →
      st.exec_running = false →
      st.current_step_index ≤ k →
      k < st.sections.length →
      st.spawned.length = st.current_step_index →
      (∀ j, j ≤ k → (st.sections.getD j defaultSec).validates = true) →
      (∀ j, j < k → exits j = 0) →
      st.sections.length + 1 ≤ fuel + st.current_step_index →
      (exits k ≠ 0 →
        (run_next exits fuel st).spawned.length = k + 1 ∧
        (k, "Failed") ∈ (run_next exits fuel st).events ∧
        (run_next exits fuel st).is_sequence_running = false) ∧
      (exits k = 0 →
        (k, "Completed") ∈ (run_next exits fuel st).events ∧
        (k = st.sections.length - 1 →
          (run_next exits fuel st).is_sequence_running = false ∧
          (run_next exits fuel st).spawned.length = st.sections.length) ∧
        (k + 1 < st.sections.length →
          (k + 1, "Running") ∈ (run_next exits fuel st).events ∨
          (k + 1, "Error") ∈ (run_next exits fuel st).events)) := by
  intro fuel
  induction fuel with
  | zero =>
    intro st k _ _ hik hkN _ _ _ hfuel
    omega
  | succ f ih =>
    intro st k hrun hexec hik hkN hspawn hvalid hexits hfuel
    simp only [run_next]
    rw [if_neg (by simp [hrun])]
    have hiN : st.current_step_index < st.sections.length := by omega
    rw [dif_pos hiN]
    have hvali : st.sections[st.current_step_index].validates = true := by
      have := hvalid st.current_step_index (by omega)
      rwa [List.getD_eq_getElem _ _ hiN] at this
    rw [if_neg (by simp [hvali])]
    rw [if_neg (by simpa using hexec)]
    by_cases hik2 : st.current_step_index = k
    · by_cases hek : exits k = 0
      · rw [if_pos (by simpa [hspawn, hik2] using hek)]
        refine ⟨fun hne0 => absurd hek hne0, fun _ => ⟨?_, ?_, ?_⟩⟩
        · apply run_next_events_mono
          simp [hik2]
        · intro hkN1
          -- k is the last stage: the next call lands past the end
          cases f with
          | zero => omega
          | succ f2 =>
            simp only [run_next]
            rw [if_neg (by simp [hrun])]
            rw [dif_neg (by simp; omega)]
            refine ⟨rfl, ?_⟩
            simp [hspawn]
            omega
        · intro hk1N
          -- stage k+1 starts next: it is either marked Running or Error
          cases f with
          | zero => omega
          | succ f2 =>
            simp only [run_next]
            rw [if_neg (by simp [hrun])]
            rw [dif_pos (by simp; omega)]
            have hlt1 : st.current_step_index + 1 < st.sections.length := by
              omega
            by_cases hv1 : st.sections[st.current_step_index + 1].validates = true
            · rw [if_neg (by simp [hv1])]
              rw [if_neg (by simpa using hexec)]
              by_cases he1 : exits (k + 1) = 0
              · rw [if_pos (by simpa [hspawn, hik2] using he1)]
                left
                apply run_next_events_mono
                simp [hik2]
              · rw [if_neg (by simpa [hspawn, hik2] using he1)]
                left
                simp [hik2]
            · rw [if_pos (by simpa using hv1)]
              right
              simp [hik2]
      · rw [if_neg (by simpa [hspawn, hik2] using hek)]
        refine ⟨fun _ => ⟨?_, ?_, ?_⟩, fun h0 => absurd h0 hek⟩
        · simp [hspawn, hik2]
        · simp [hik2]
        · rfl
    · -- an earlier, succeeding step: advance and recurse
      have hei : exits st.current_step_index = 0 :=
        hexits st.current_step_index (by omega)
      rw [if_pos (by simpa [hspawn] using hei)]
      have happ := ih
        { st with
          sections := st.sections.set st.current_step_index
            (set_paths (st.sections.get ⟨st.current_step_index, hiN⟩)
              st.config
              (if st.current_step_index = 0 then
                st.config.global_context.input_dir
              else (st.sections.getD (st.current_step_index - 1)
                defaultSec).output_path)
              (if st.current_step_index = st.sections.length - 1 then
                st.config.global_context.output_dir
              else intermediate_dir st.config.global_context.output_dir
                (st.sections.get ⟨st.current_step_index, hiN⟩).name)).1
          current_step_index := st.current_step_index + 1
          config := (set_paths (st.sections.get ⟨st.current_step_index, hiN⟩)
              st.config
              (if st.current_step_index = 0 then
                st.config.global_context.input_dir
              else (st.sections.getD (st.current_step_index - 1)
                defaultSec).output_path)
              (if st.current_step_index = st.sections.length - 1 then
                st.config.global_context.output_dir
              else intermediate_dir st.config.global_context.output_dir
                (st.sections.get ⟨st.current_step_index, hiN⟩).name)).2
          fs := if (if st.current_step_index = st.sections.length - 1 then
                st.config.global_context.output_dir
              else intermediate_dir st.config.global_context.output_dir
                (st.sections.get ⟨st.current_step_index, hiN⟩).name) ≠ "" ∧
              ¬ st.fs.pathExists
                (if st.current_step_index = st.sections.length - 1 then
                  st.config.global_context.output_dir
                else intermediate_dir st.config.global_context.output_dir
                  (st.sections.get ⟨st.current_step_index, hiN⟩).name) then
              { st.fs with pathExists := fun p =>
                (p == (if st.current_step_index = st.sections.length - 1 then
                    st.config.global_context.output_dir
                  else intermediate_dir st.config.global_context.output_dir
                    (st.sections.get ⟨st.current_step_index, hiN⟩).name)) ||
                  st.fs.pathExists p }
            else st.fs
          spawned := st.spawned ++
            [(set_paths (st.sections.get ⟨st.current_step_index, hiN⟩)
              st.config
              (if st.current_step_index = 0 then
                st.config.global_context.input_dir
              else (st.sections.getD (st.current_step_index - 1)
                defaultSec).output_path)
              (if st.current_step_index = st.sections.length - 1 then
                st.config.global_context.output_dir
              else intermediate_dir st.config.global_context.output_dir
                (st.sections.get ⟨st.current_step_index, hiN⟩).name)).1.command]
          queue := (st.queue ++
            ["\n[Manager]: Starting Step " ++
              toString (st.current_step_index + 1) ++ ": " ++
              (st.sections.get ⟨st.current_step_index, hiN⟩).name ++ "\n"] ++
            ["   -> Input: " ++
              (if st.current_step_index = 0 then
                st.config.global_context.input_dir
              else (st.sections.getD (st.current_step_index - 1)
                defaultSec).output_path) ++ "\n",
              "   -> Output: " ++
              (if st.current_step_index = st.sections.length - 1 then
                st.config.global_context.output_dir
              else intermediate_dir st.config.global_context.output_dir
                (st.sections.get ⟨st.current_step_index, hiN⟩).name) ++ "\n"]) ++
            ["[System]: Process finished with return code " ++
              toString (exits st.spawned.length) ++ "\n"]
          events := (st.events ++ [(st.current_step_index, "Running")]) ++
            [(st.current_step_index, "Completed")] }
        k hrun hexec (by show st.current_step_index + 1 ≤ k; omega)
        (by simpa using hkN)
        (by simp [hspawn])
        (by
          intro j hj
          by_cases hji : j = st.current_step_index
          · subst hji
            rw [getD_set_self _ _ _ _ hiN]
            exact hvali
          · rw [getD_set_ne _ _ _ (fun he => hji he.symm)]
            exact hvalid j hj)
        hexits
        (by simp; omega)
      simpa using happ

/-- **C4.** For every run started by `run_sequence` from an idle executor with
no prior spawns, and every stage index `k` such that every earlier stage's
process exits 0 and every stage up to `k` validates: if stage `k`'s process
exits nonzero, stage `k` is marked "Failed", the run stops
(`is_sequence_running` becomes false) and exactly `k + 1` processes are ever
spawned — so no process is ever spawned for any stage after `k`; if it exits
zero, stage `k` is marked "Completed" and the run advances: after the last
stage it terminates as complete with one process per stage, and otherwise
stage `k + 1` is taken up next (marked "Running", or "Error" if its
validation fails). -/
theorem c4_exit_code_dispatch (cats : List PipelineCategory)
    (exits : Nat → Int) (st : RunState) (k : Nat)
    (hne : st.sections ≠ [])
    (henv : validate_pipeline_environment st.fs st.config.global_context = true)
    (hexec : st.exec_running = false)
    (hspawn : st.spawned = [])
    (hkN : k < st.sections.length)
    (hvalid : ∀ j, j ≤ k → (st.sections.getD j defaultSec).validates = true)
    (hexits : ∀ j, j < k → exits j = 0) :
    (exits k ≠ 0 →
      (run_sequence cats exits st).spawned.length = k + 1 ∧
      (k, "Failed") ∈ (run_sequence cats exits st).events ∧
      (run_sequence cats exits st).is_sequence_running = false) ∧
    (exits k = 0 →
      (k, "Completed") ∈ (run_sequence cats exits st).events ∧
      (k = st.sections.length - 1 →
        (run_sequence cats exits st).is_sequence_running = false ∧
        (run_sequence cats exits st).spawned.length = st.sections.length) ∧
      (k + 1 < st.sections.length →
        (k + 1, "Running") ∈ (run_sequence cats exits st).events ∨
        (k + 1, "Error") ∈ (run_sequence cats exits st).events)) := by
  unfold run_sequence
  rw [if_neg (by simpa using hne)]
  split
  · unfold run_sequence_env
    rw [if_neg (by simp [henv])]
    exact run_next_c4 exits _ _ k rfl hexec (Nat.zero_le k) hkN
      (by simp [hspawn]) hvalid hexits (by simp)
  · unfold run_sequence_env
    rw [if_neg (by simp [henv])]
    exact run_next_c4 exits _ _ k rfl hexec (Nat.zero_le k) hkN
      (by simp [hspawn]) hvalid hexits (by simp)

/-! ### Concrete fixtures for the run model -/

/-- A filesystem on which "/in" and "/out" exist and everything is writable. -/
def fsRun : FileSystem := ⟨fun p => p == "/in" || p == "/out", fun _ => true⟩

/-- Global context for the demo runs. -/
def gRun : GlobalContext := { input_dir := "/in", output_dir := "/out" }

/-- Demo configuration with an empty settings store. -/
def cfgRun : PipelineConfiguration := ⟨gRun, fun _ => none⟩

/-- First demo section. -/
def secAlpha : PipelineSection := ⟨"alpha", true, ["alpha-cmd"], "", ""⟩

/-- Second demo section. -/
def secBeta : PipelineSection := ⟨"beta", true, ["beta-cmd"], "", ""⟩

/-- Idle two-stage state: nothing running, nothing spawned. -/
def stRun : RunState :=
  { sections := [secAlpha, secBeta]
    current_step_index := 0
    is_sequence_running := false
    config := cfgRun
    fs := fsRun
    exec_running := false
    spawned := []
    queue := []
    events := [] }

/-- C1 witness: on the concrete two-stage run with every process exiting 0,
stage 0 reads from "/in", stage 1 reads what stage 0 wrote, and stage 1
writes to "/out". -/
theorem c1_witness :
    ((run_sequence [] (fun _ => 0) stRun).sections.getD 0 defaultSec).input_path =
      "/in" ∧
    ((run_sequence [] (fun _ => 0) stRun).sections.getD 1 defaultSec).input_path =
      ((run_sequence [] (fun _ => 0) stRun).sections.getD 0 defaultSec).output_path ∧
    ((run_sequence [] (fun _ => 0) stRun).sections.getD 1 defaultSec).output_path =
      "/out" := by
  have h := c1_path_chaining [] (fun _ => 0) stRun (by decide)
    (by decide) (fun _ => rfl) (by decide) rfl
  exact ⟨h.1, (h.2.1 0 (by decide)).2, h.2.2⟩

/-- C4 witness: on the concrete two-stage run whose first process exits 1,
exactly one process is ever spawned, step 0 is marked "Failed", and the
sequence stops. -/
theorem c4_witness :
    (run_sequence [] (fun n => if n = 0 then (1 : Int) else 0) stRun).spawned.length
      = 1 ∧
    (0, "Failed") ∈
      (run_sequence [] (fun n => if n = 0 then (1 : Int) else 0) stRun).events ∧
    (run_sequence [] (fun n => if n = 0 then (1 : Int) else 0) stRun).is_sequence_running
      = false :=
  (c4_exit_code_dispatch [] (fun n => if n = 0 then (1 : Int) else 0) stRun 0
    (by decide) (by decide) rfl rfl (by decide)
    (fun j hj => by
      have hj0 : j = 0 := Nat.le_zero.mp hj
      subst hj0
      rfl)
    (fun j hj => absurd hj (Nat.not_lt_zero j))).1 (by decide)

/-! ### C6 — a second `run` while a process is active -/

/-- Mid-run state: the executor is busy with stage 0's process and the
manager is waiting at step index 1. -/
def stMid : RunState :=
  { sections := [secAlpha, secBeta]
    current_step_index := 1
    is_sequence_running := true
    config := cfgRun
    fs := fsRun
    exec_running := true
    spawned := [["alpha-cmd"]]
    queue := []
    events := [(0, "Running")] }

/-- C6 counterexample: a second `run_sequence` call made while the first
run's process is still active does NOT leave the original run's state
unaffected — it resets `current_step_index` (here from 1 back to 0), so the
original run cannot continue as it would have. -/
theorem c6_counterexample :
    ¬ ((run_sequence [] (fun _ => 0) stMid).current_step_index =
        stMid.current_step_index) := by
  decide

/-- C6 (amended): a second `run_sequence` call while the executor is busy
spawns nothing — the single-process guard rejects it and logs the notice —
and leaves the sequence flag up, but it does clobber the manager's run
state: `current_step_index` is reset to 0 (and step 0's paths are
re-injected) before the guard fires, because `run_sequence` itself has no
re-entrancy guard. -/
theorem c6_second_run_guarded_but_clobbers (cats : List PipelineCategory)
    (exits : Nat → Int) (st : RunState)
    (hne : st.sections ≠ [])
    (henv : validate_pipeline_environment st.fs st.config.global_context = true)
    (hbusy : st.exec_running = true)
    (hval0 : (st.sections.getD 0 defaultSec).validates = true) :
    (run_sequence cats exits st).spawned = st.spawned ∧
    procBusyMsg ∈ (run_sequence cats exits st).queue ∧
    (run_sequence cats exits st).current_step_index = 0 ∧
    (run_sequence cats exits st).is_sequence_running = true := by
  have hlen : 0 < st.sections.length := List.length_pos.mpr hne
  have hv : st.sections[0].validates = true := by
    rwa [List.getD_eq_getElem _ _ hlen] at hval0
  unfold run_sequence
  rw [if_neg (by simpa using hne)]
  split
  · unfold run_sequence_env
    rw [if_neg (by simp [henv])]
    simp only [run_next]
    rw [if_neg (by simp)]
    rw [dif_pos (by simpa using hlen)]
    rw [if_neg (by simp [hv])]
    rw [if_pos (by simpa using hbusy)]
    exact ⟨rfl, by simp, rfl, rfl⟩
  · unfold run_sequence_env
    rw [if_neg (by simp [henv])]
    simp only [run_next]
    rw [if_neg (by simp)]
    rw [dif_pos (by simpa using hlen)]
    rw [if_neg (by simp [hv])]
    rw [if_pos (by simpa using hbusy)]
    exact ⟨rfl, by simp, rfl, rfl⟩

/-- C6 witness: on the concrete busy mid-run state, the second call spawns
nothing and logs the busy notice (and resets the step index to 0). -/
theorem c6_witness :
    (run_sequence [] (fun _ => 0) stMid).spawned = stMid.spawned ∧
    procBusyMsg ∈ (run_sequence [] (fun _ => 0) stMid).queue ∧
    (run_sequence [] (fun _ => 0) stMid).current_step_index = 0 ∧
    (run_sequence [] (fun _ => 0) stMid).is_sequence_running = true :=
  c6_second_run_guarded_but_clobbers [] (fun _ => 0) stMid (by decide)
    (by decide) rfl (by decide)

end Pipeline
